import Mathlib

/-!
Shallow embedding of the yaml-cpp core scanner (src/scanner.cpp) and the
Map parser (map.cpp, concatenated in the same source file), together with
proofs settling the frozen claims.  Functions present in the source are
translated faithfully; functions whose implementation is missing from the
available source (token.h defaults, the ScanToken bodies, exp.h patterns,
the simple-key machinery, node.cpp) are modelled from the specification and
carry a doc comment saying so.
-/

namespace YAML

/-- Token kinds of the token model (spec section 3, token.h is not in src). -/
inductive TokenType where
  | streamStart | streamEnd | documentStart | documentEnd
  | blockSeqStart | blockMapStart | blockEnd | blockEntry
  | key | value
  | flowSeqStart | flowSeqEnd | flowMapStart | flowMapEnd | flowEntry
  | plainScalar | quotedScalar
deriving DecidableEq, Repr

/-- Modelled from the spec: the token record of the missing token.h.  A token
carries its kind, optional scalar text, and the two status booleans of the
possible/valid lookahead-retraction scheme (Tentative = possible but not yet
valid, Confirmed = possible and valid, Retracted = not possible).  The `id`
field models the C++ heap identity of the token (each `new` yields a fresh
id), used for the pointer-based simple-key mutation and for allocation
accounting. -/
structure Token where
  type : TokenType
  value : List Char
  isPossible : Bool
  isValid : Bool
  id : Nat
deriving DecidableEq, Repr

/-- Modelled from the spec: the pending simple-key record of the missing
simple-key machinery.  It remembers the queue identity of the tentative Key
token (and of the tentative BlockMapStart token when one was pushed), plus
the position and flow level at which the candidate was proposed. -/
structure SimpleKey where
  keyId : Nat
  mapStartId : Option Nat
  line : Int
  flowLevel : Int
deriving DecidableEq, Repr

/-- Error kinds of the core (spec section 7; exceptions.h is not in src). -/
inductive ScanError where
  | unknownToken
deriving DecidableEq, Repr

/-- State of Scanner (scanner.cpp).  `input` is the remaining character
stream; the member names follow the C++ fields.  `m_tokens` is the FIFO
queue with its front at the head; `m_indents` is the indentation stack with
its top at the head.  `nextId` is the allocation counter backing `Token.id`;
`pendingKey` is the spec-modelled pending simple-key slot. -/
structure Scanner where
  input : List Char
  m_startedStream : Bool
  m_endedStream : Bool
  m_simpleKeyAllowed : Bool
  m_flowLevel : Int
  m_line : Int
  m_column : Int
  m_indents : List Int
  m_tokens : List Token
  m_limboTokens : List Token
  nextId : Nat
  pendingKey : Option SimpleKey
deriving DecidableEq, Repr

/-- Scanner constructor (scanner.cpp lines 9-13): all flags false, counters
zero; note that `m_indents` is a default-constructed stack and is therefore
empty, no sentinel is pushed here. -/
def initScanner (l : List Char) : Scanner :=
  ⟨l, false, false, false, 0, 0, 0, [], [], [], 0, none⟩

/-- GetChar: extracts one character and updates the position (column++, and
on a line break the column resets to 0 and the line advances). -/
def Scanner.GetChar (s : Scanner) : Scanner :=
  match s.input with
  | [] => { s with m_column := s.m_column + 1 }
  | c :: rest =>
      if c = '\n' then
        { s with input := rest, m_column := 0, m_line := s.m_line + 1 }
      else
        { s with input := rest, m_column := s.m_column + 1 }

/-- Eat: eats `n` characters, updating the position. -/
def Scanner.Eat (s : Scanner) : Nat → Scanner
  | 0 => s
  | n + 1 => (s.GetChar).Eat n

/-- EatLineBreak: eats one character with no checking and resets the column. -/
def Scanner.EatLineBreak (s : Scanner) : Scanner :=
  { s.Eat 1 with m_column := 0 }

/-- IsWhitespaceToBeEaten (scanner.cpp lines 76-85), translated literally:
a space is always eaten; a tab is eaten when `m_flowLevel >= 0` holds or a
simple key is not allowed.  (The comment above the C++ function asks for the
flow context, i.e. `m_flowLevel > 0`, but the code tests `>= 0`.) -/
def Scanner.IsWhitespaceToBeEaten (s : Scanner) (ch : Option Char) : Bool :=
  match ch with
  | none => false
  | some c =>
      if c = ' ' then true
      else if c = '\t' ∧ (0 ≤ s.m_flowLevel ∨ ¬s.m_simpleKeyAllowed) then true
      else false

/-- Modelled from the spec: blank-or-break-or-end lookahead class used by the
missing exp.h patterns. -/
def blankOrBreakAt (l : List Char) : Bool :=
  match l with
  | [] => true
  | c :: _ => c = ' ' ∨ c = '\t' ∨ c = '\n'

/-- Modelled from the spec: the line-break pattern of the missing exp.h. -/
def expBreak (l : List Char) : Bool :=
  l.head? = some '\n'

/-- Modelled from the spec: the comment-marker pattern of the missing exp.h. -/
def expComment (l : List Char) : Bool :=
  l.head? = some '#'

/-- Modelled from the spec: the document-start pattern `---` of exp.h,
followed by blank, break or end of input. -/
def expDocStart (l : List Char) : Bool :=
  match l with
  | '-' :: '-' :: '-' :: rest => blankOrBreakAt rest
  | _ => false

/-- Modelled from the spec: the document-end pattern `...` of exp.h. -/
def expDocEnd (l : List Char) : Bool :=
  match l with
  | '.' :: '.' :: '.' :: rest => blankOrBreakAt rest
  | _ => false

/-- Modelled from the spec: the block-entry pattern of exp.h, a `-` followed
by blank, break or end of input. -/
def expBlockEntry (l : List Char) : Bool :=
  match l with
  | '-' :: rest => blankOrBreakAt rest
  | _ => false

/-- Modelled from the spec: the explicit-key patterns of exp.h (`?` plus
blank in block context, bare `?` in flow context). -/
def expKey (l : List Char) : Bool :=
  match l with
  | '?' :: rest => blankOrBreakAt rest
  | _ => false

/-- Modelled from the spec: bare `?` key indicator inside flow. -/
def expKeyInFlow (l : List Char) : Bool :=
  l.head? = some '?'

/-- Modelled from the spec: the value patterns of exp.h (`:` plus blank in
block context, bare `:` in flow context). -/
def expValue (l : List Char) : Bool :=
  match l with
  | ':' :: rest => blankOrBreakAt rest
  | _ => false

/-- Modelled from the spec: bare `:` value indicator inside flow. -/
def expValueInFlow (l : List Char) : Bool :=
  l.head? = some ':'

/-- Modelled from the spec: the set of characters at which a plain scalar
stops (the plain-scalar grammar is a black-box capability in the spec; this
model stops at whitespace, breaks, comments and indicators, which is all the
covered behaviour exercises). -/
def plainScalarStop (c : Char) : Bool :=
  c = ' ' ∨ c = '\t' ∨ c = '\n' ∨ c = '#' ∨ c = ':' ∨ c = ',' ∨
  c = '[' ∨ c = ']' ∨ c = '{' ∨ c = '}'

/-- Modelled from the spec: characters that may begin a plain scalar (not a
stop character and not a reserved indicator). -/
def plainScalarStart (c : Char) : Bool :=
  ¬(plainScalarStop c ∨ c = '-' ∨ c = '?' ∨ c = '&' ∨ c = '*' ∨ c = '!' ∨
    c = '|' ∨ c = '>' ∨ c = '\'' ∨ c = '"' ∨ c = '%' ∨ c = '@' ∨ c = '`')

/-- IsDocumentStart: needs column 0 and the document-start pattern. -/
def Scanner.IsDocumentStart (s : Scanner) : Bool :=
  if s.m_column ≠ 0 then false else expDocStart s.input

/-- IsDocumentEnd: needs column 0 and the document-end pattern. -/
def Scanner.IsDocumentEnd (s : Scanner) : Bool :=
  if s.m_column ≠ 0 then false else expDocEnd s.input

/-- IsBlockEntry (scanner.cpp lines 108-111). -/
def Scanner.IsBlockEntry (s : Scanner) : Bool :=
  expBlockEntry s.input

/-- IsKey (scanner.cpp lines 114-119): flow and block use different patterns. -/
def Scanner.IsKey (s : Scanner) : Bool :=
  if 0 < s.m_flowLevel then expKeyInFlow s.input else expKey s.input

/-- IsValue (scanner.cpp lines 122-127). -/
def Scanner.IsValue (s : Scanner) : Bool :=
  if 0 < s.m_flowLevel then expValueInFlow s.input else expValue s.input

/-- IsPlainScalar (scanner.cpp lines 130-135); the in-flow and block variants
share the modelled start predicate. -/
def Scanner.IsPlainScalar (s : Scanner) : Bool :=
  match s.input with
  | [] => false
  | c :: _ => plainScalarStart c

/-- Modelled from the spec: mark the token with the given heap identity as no
longer possible (Retracted). -/
def setTokenImpossibleById (i : Nat) (l : List Token) : List Token :=
  l.map fun t => if t.id = i then { t with isPossible := false } else t

/-- Modelled from the spec: mark the token with the given heap identity as
valid (Confirmed). -/
def setTokenValidById (i : Nat) (l : List Token) : List Token :=
  l.map fun t => if t.id = i then { t with isValid := true } else t

/-- Modelled from the spec: mark the token with the given heap identity as
not yet valid (Tentative). -/
def setTokenInvalidById (i : Nat) (l : List Token) : List Token :=
  l.map fun t => if t.id = i then { t with isValid := false } else t

/-- Modelled from the spec: a pending simple-key candidate stays reachable
while the scanner is still on the line and at the flow level at which the
candidate was proposed. -/
def SimpleKey.reachable (k : SimpleKey) (s : Scanner) : Bool :=
  k.line = s.m_line ∧ k.flowLevel = s.m_flowLevel

/-- Modelled from the spec: retract the pending simple-key candidate, marking
its tentative Key token (and tentative BlockMapStart, if any) Retracted. -/
def Scanner.retractPending (s : Scanner) : Scanner :=
  match s.pendingKey with
  | none => s
  | some k =>
      let ts := setTokenImpossibleById k.keyId s.m_tokens
      let ts2 := match k.mapStartId with
        | some i => setTokenImpossibleById i ts
        | none => ts
      { s with m_tokens := ts2, pendingKey := none }

/-- Modelled from the spec: confirm the pending simple-key candidate, marking
its Key token (and BlockMapStart, if any) Confirmed. -/
def Scanner.confirmPending (s : Scanner) : Scanner :=
  match s.pendingKey with
  | none => s
  | some k =>
      let ts := setTokenValidById k.keyId s.m_tokens
      let ts2 := match k.mapStartId with
        | some i => setTokenValidById i ts
        | none => ts
      { s with m_tokens := ts2, pendingKey := none }

/-- Modelled from the spec: ValidateSimpleKey retracts a pending candidate
simple key once it is no longer reachable (for example, a line break occurred
since it was proposed, or the flow level changed); a still-reachable candidate
stays pending until a value indicator confirms it. -/
def Scanner.ValidateSimpleKey (s : Scanner) : Scanner :=
  match s.pendingKey with
  | none => s
  | some k => if k.reachable s then s else s.retractPending

/-- Allocation of a fresh token (`new XToken` in C++): the token is created
Confirmed with a fresh heap identity. -/
def Scanner.newToken (s : Scanner) (ty : TokenType) (v : List Char) : Token × Scanner :=
  (⟨ty, v, true, true, s.nextId⟩, { s with nextId := s.nextId + 1 })

/-- PushIndentTo (scanner.cpp lines 258-276): no-op in flow or when the
column is not strictly greater than the current top; otherwise pushes the
column, enqueues BlockSeqStart or BlockMapStart, and returns the FRONT of
the token queue (`m_tokens.front()`), not the newly enqueued token.  The C++
reads `m_indents.top()` even when the stack is empty (undefined behaviour
there); the model reads `headI`, which yields 0 for the empty stack. -/
def Scanner.PushIndentTo (s : Scanner) (column : Int) (sequence : Bool) :
    Option Token × Scanner :=
  if 0 < s.m_flowLevel then (none, s)
  else if column ≤ s.m_indents.headI then (none, s)
  else
    let a := s.newToken (if sequence then TokenType.blockSeqStart else TokenType.blockMapStart) []
    let s1 := { a.2 with m_indents := column :: a.2.m_indents,
                         m_tokens := a.2.m_tokens ++ [a.1] }
    (s1.m_tokens.head?, s1)

/-- Pop loop of PopIndentTo: pop every level strictly greater than the
column, enqueuing one BlockEnd per pop. -/
def popIndents (column : Int) : List Int → List Token → Nat → List Int × List Token × Nat
  | [], toks, nid => ([], toks, nid)
  | top :: rest, toks, nid =>
      if column < top then
        popIndents column rest (toks ++ [⟨TokenType.blockEnd, [], true, true, nid⟩]) (nid + 1)
      else (top :: rest, toks, nid)

/-- PopIndentTo (scanner.cpp lines 281-292): no-op in flow; otherwise pops
indentations above `column`, enqueuing a BlockEnd each time. -/
def Scanner.PopIndentTo (s : Scanner) (column : Int) : Scanner :=
  if 0 < s.m_flowLevel then s
  else
    let r := popIndents column s.m_indents s.m_tokens s.nextId
    { s with m_indents := r.1, m_tokens := r.2.1, nextId := r.2.2 }

/-- IncreaseFlowLevel (scanner.cpp lines 295-299). -/
def Scanner.IncreaseFlowLevel (s : Scanner) : Scanner :=
  { s with m_flowLevel := s.m_flowLevel + 1 }

/-- DecreaseFlowLevel (scanner.cpp lines 302-308): never drops below 0. -/
def Scanner.DecreaseFlowLevel (s : Scanner) : Scanner :=
  if 0 < s.m_flowLevel then { s with m_flowLevel := s.m_flowLevel - 1 } else s

/-- Whitespace-eating loop at the head of ScanToNextToken, fuelled by the
length of the remaining input. -/
def Scanner.eatWhitespaceF : Nat → Scanner → Scanner
  | 0, s => s
  | n + 1, s =>
      if s.IsWhitespaceToBeEaten s.input.head? then Scanner.eatWhitespaceF n (s.Eat 1) else s

/-- Comment-eating loop of ScanToNextToken: eat until a line break or the end
of input. -/
def Scanner.eatCommentF : Nat → Scanner → Scanner
  | 0, s => s
  | n + 1, s =>
      if s.input ≠ [] ∧ ¬expBreak s.input then Scanner.eatCommentF n (s.Eat 1) else s

/-- ScanToNextToken (scanner.cpp lines 224-252): repeatedly eat consumable
whitespace, then a comment, then stop unless at a line break; a line break is
eaten, the pending simple key validated, and (outside flow) simple-key
candidacy re-enabled for the new line. -/
def Scanner.ScanToNextTokenF : Nat → Scanner → Scanner
  | 0, s => s
  | n + 1, s =>
      let s1 := Scanner.eatWhitespaceF s.input.length s
      let s2 := if expComment s1.input then Scanner.eatCommentF s1.input.length s1 else s1
      if expBreak s2.input then
        let s3 := s2.EatLineBreak
        let s4 := s3.ValidateSimpleKey
        let s5 := if s4.m_flowLevel = 0 then { s4 with m_simpleKeyAllowed := true } else s4
        Scanner.ScanToNextTokenF n s5
      else s2

/-- Modelled from the spec: InsertSimpleKey of the missing simple-key
machinery.  At most one candidate is pending (inserting a new one retracts
the old), a tentative BlockMapStart is pushed through PushIndentTo when the
column is an indentation increase, and a tentative Key token is enqueued. -/
def Scanner.InsertSimpleKey (s : Scanner) : Scanner :=
  let s0 := s.retractPending
  let newId := s0.nextId
  let p := s0.PushIndentTo s0.m_column false
  let s1 := p.2
  let mapStartId := if p.1.isSome then some newId else none
  let s2 := match mapStartId with
    | some i => { s1 with m_tokens := setTokenInvalidById i s1.m_tokens }
    | none => s1
  let a := s2.newToken TokenType.key []
  { a.2 with m_tokens := a.2.m_tokens ++ [{ a.1 with isValid := false }],
             pendingKey := some ⟨a.1.id, mapStartId, a.2.m_line, a.2.m_flowLevel⟩ }

/-- Modelled from the spec: plain-scalar reading loop (the plain-scalar
grammar is a black-box capability); the loop consumes characters until a
stop character or the end of input. -/
def Scanner.readPlainScalarF : Nat → Scanner → List Char → List Char × Scanner
  | 0, s, acc => (acc, s)
  | n + 1, s, acc =>
      match s.input with
      | [] => (acc, s)
      | c :: _ =>
          if plainScalarStop c then (acc, s)
          else Scanner.readPlainScalarF n (s.Eat 1) (acc ++ [c])

/-- Modelled from the spec: quoted-scalar reading loop, consuming until the
matching close quote or the end of input (the close quote is eaten). -/
def Scanner.readQuotedF : Nat → Char → Scanner → List Char → List Char × Scanner
  | 0, _, s, acc => (acc, s)
  | n + 1, q, s, acc =>
      match s.input with
      | [] => (acc, s)
      | c :: _ =>
          if c = q then (acc, s.Eat 1)
          else Scanner.readQuotedF n q (s.Eat 1) (acc ++ [c])

/-- Modelled from the spec: ScanToken for StreamStart (the body is not in
src): mark the stream started, allow a simple key, and push the sentinel
bottom indentation -1. -/
def Scanner.ScanStreamStartBody (s : Scanner) (t : Token) : Token × Scanner :=
  (t, { s with m_startedStream := true, m_simpleKeyAllowed := true,
               m_indents := -1 :: s.m_indents })

/-- Modelled from the spec: ScanToken for StreamEnd: the candidate window
closes for good, every open indentation is popped (one BlockEnd each), and
the stream is marked ended. -/
def Scanner.ScanStreamEndBody (s : Scanner) (t : Token) : Token × Scanner :=
  let s1 := (s.retractPending).PopIndentTo (-1)
  (t, { s1 with m_endedStream := true, m_simpleKeyAllowed := false })

/-- Modelled from the spec: ScanToken for DocumentStart/DocumentEnd: the
pending candidate is dropped, open indentations are closed, and the three
marker characters are eaten. -/
def Scanner.ScanDocBody (s : Scanner) (t : Token) : Token × Scanner :=
  let s1 := (s.retractPending).PopIndentTo (-1)
  (t, { s1.Eat 3 with m_simpleKeyAllowed := false })

/-- Modelled from the spec: ScanToken for FlowSeqStart/FlowMapStart: eat the
bracket, increase the flow level, and allow a simple key. -/
def Scanner.ScanFlowStartBody (s : Scanner) (t : Token) : Token × Scanner :=
  let s1 := (s.IncreaseFlowLevel).Eat 1
  (t, { s1 with m_simpleKeyAllowed := true })

/-- Modelled from the spec: ScanToken for FlowSeqEnd/FlowMapEnd: eat the
bracket and decrease the flow level. -/
def Scanner.ScanFlowEndBody (s : Scanner) (t : Token) : Token × Scanner :=
  let s1 := (s.DecreaseFlowLevel).Eat 1
  (t, { s1 with m_simpleKeyAllowed := false })

/-- Modelled from the spec: ScanToken for FlowEntry: eat the comma and allow
a simple key. -/
def Scanner.ScanFlowEntryBody (s : Scanner) (t : Token) : Token × Scanner :=
  (t, { s.Eat 1 with m_simpleKeyAllowed := true })

/-- Modelled from the spec: ScanToken for BlockEntry: push a block-sequence
indentation when the column is deeper than the current top, then eat the
dash; a simple key is allowed after it. -/
def Scanner.ScanBlockEntryBody (s : Scanner) (t : Token) : Token × Scanner :=
  let s1 := (s.PushIndentTo s.m_column true).2
  (t, { s1.Eat 1 with m_simpleKeyAllowed := true })

/-- Modelled from the spec: ScanToken for an explicit Key indicator: in block
context push a block-mapping indentation when deeper; a simple key stays
allowed only in block context. -/
def Scanner.ScanKeyBody (s : Scanner) (t : Token) : Token × Scanner :=
  let s1 := if s.m_flowLevel = 0 then (s.PushIndentTo s.m_column false).2 else s
  (t, { s1.Eat 1 with m_simpleKeyAllowed := decide (s.m_flowLevel = 0) })

/-- Modelled from the spec: ScanToken for a Value indicator: when the colon
follows a still-reachable pending simple key, the candidate is confirmed (its
tentative Key and BlockMapStart become valid) and no further simple key may
immediately follow; otherwise, in block context, a block-mapping indentation
is pushed when deeper and simple keys stay allowed only in block context. -/
def Scanner.ScanValueBody (s : Scanner) (t : Token) : Token × Scanner :=
  match s.pendingKey with
  | some k =>
      if k.reachable s then
        let s1 := s.confirmPending
        (t, { s1.Eat 1 with m_simpleKeyAllowed := false })
      else
        let s0 := s.retractPending
        let s1 := if s0.m_flowLevel = 0 then (s0.PushIndentTo s0.m_column false).2 else s0
        (t, { s1.Eat 1 with m_simpleKeyAllowed := decide (s0.m_flowLevel = 0) })
  | none =>
      let s1 := if s.m_flowLevel = 0 then (s.PushIndentTo s.m_column false).2 else s
      (t, { s1.Eat 1 with m_simpleKeyAllowed := decide (s.m_flowLevel = 0) })

/-- Modelled from the spec: ScanToken for a plain scalar: if a simple key is
allowed here, propose the tentative candidate first, then read the scalar
text. -/
def Scanner.ScanPlainScalarBody (s : Scanner) (t : Token) : Token × Scanner :=
  let s1 := if s.m_simpleKeyAllowed then s.InsertSimpleKey else s
  let s2 := { s1 with m_simpleKeyAllowed := false }
  match s2.input with
  | [] => (t, s2)
  | c :: _ =>
      let s3 := s2.Eat 1
      let r := Scanner.readPlainScalarF s3.input.length s3 [c]
      ({ t with value := r.1 }, r.2)

/-- Modelled from the spec: ScanToken for a quoted scalar: if a simple key is
allowed here, propose the tentative candidate first, then read up to the
matching quote. -/
def Scanner.ScanQuotedScalarBody (s : Scanner) (t : Token) : Token × Scanner :=
  let s1 := if s.m_simpleKeyAllowed then s.InsertSimpleKey else s
  let s2 := { s1 with m_simpleKeyAllowed := false }
  match s2.input with
  | [] => (t, s2)
  | q :: _ =>
      let s3 := s2.Eat 1
      let r := Scanner.readQuotedF s3.input.length q s3 []
      ({ t with value := r.1 }, r.2)

/-- ScanAndEnqueue (scanner.cpp lines 144-149): allocate the token, place it
in the limbo set, run its ScanToken body, push the result on the queue and
erase it from limbo.  If the body threw, the token would stay in limbo for
the destructor; the modelled bodies are total, matching the spec's error
kinds. -/
def Scanner.ScanAndEnqueue (s : Scanner) (ty : TokenType)
    (body : Scanner → Token → Token × Scanner) : Scanner :=
  let a := s.newToken ty []
  let t := a.1
  let s2 := { a.2 with m_limboTokens := t :: a.2.m_limboTokens }
  let b := body s2 t
  let s3 := b.2
  { s3 with m_tokens := s3.m_tokens ++ [b.1],
            m_limboTokens := s3.m_limboTokens.filter (fun x => x.id ≠ t.id) }

/-- Branches of the classification chain of ScanNextToken (scanner.cpp lines
166-219), in the priority order of the source. -/
inductive ScanClass where
  | streamEnd | docStart | docEnd
  | flowSeqStart | flowSeqEnd | flowMapStart | flowMapEnd | flowEntry
  | blockEntry | keyInd | valueInd
  | stall
  | quoted
  | plain
  | unknown
deriving DecidableEq, Repr

/-- Classification chain of ScanNextToken, following the source order: end of
input, document markers, flow delimiters, block entry, key, value, the
literal/folded block-scalar markers (which produce NO token in block
context), quotes, plain scalar, and otherwise the unknown-token error. -/
def Scanner.classify (s : Scanner) : ScanClass :=
  match s.input with
  | [] => ScanClass.streamEnd
  | c :: _ =>
      if s.IsDocumentStart then ScanClass.docStart
      else if s.IsDocumentEnd then ScanClass.docEnd
      else if c = '[' then ScanClass.flowSeqStart
      else if c = ']' then ScanClass.flowSeqEnd
      else if c = '{' then ScanClass.flowMapStart
      else if c = '}' then ScanClass.flowMapEnd
      else if c = ',' then ScanClass.flowEntry
      else if s.IsBlockEntry then ScanClass.blockEntry
      else if s.IsKey then ScanClass.keyInd
      else if s.IsValue then ScanClass.valueInd
      else if c = '|' ∧ s.m_flowLevel = 0 then ScanClass.stall
      else if c = '>' ∧ s.m_flowLevel = 0 then ScanClass.stall
      else if c = '\'' ∨ c = '"' then ScanClass.quoted
      else if s.IsPlainScalar then ScanClass.plain
      else ScanClass.unknown

/-- Dispatch of a classified position: each branch scans and enqueues the
corresponding token; the stall branch returns with no token enqueued and no
input consumed (the `TODO: special scalars` branch of the source); the
unknown branch throws UnknownToken. -/
def Scanner.dispatch (s : Scanner) : ScanClass → Except ScanError Scanner
  | ScanClass.streamEnd =>
      Except.ok (s.ScanAndEnqueue TokenType.streamEnd Scanner.ScanStreamEndBody)
  | ScanClass.docStart =>
      Except.ok (s.ScanAndEnqueue TokenType.documentStart Scanner.ScanDocBody)
  | ScanClass.docEnd =>
      Except.ok (s.ScanAndEnqueue TokenType.documentEnd Scanner.ScanDocBody)
  | ScanClass.flowSeqStart =>
      Except.ok (s.ScanAndEnqueue TokenType.flowSeqStart Scanner.ScanFlowStartBody)
  | ScanClass.flowSeqEnd =>
      Except.ok (s.ScanAndEnqueue TokenType.flowSeqEnd Scanner.ScanFlowEndBody)
  | ScanClass.flowMapStart =>
      Except.ok (s.ScanAndEnqueue TokenType.flowMapStart Scanner.ScanFlowStartBody)
  | ScanClass.flowMapEnd =>
      Except.ok (s.ScanAndEnqueue TokenType.flowMapEnd Scanner.ScanFlowEndBody)
  | ScanClass.flowEntry =>
      Except.ok (s.ScanAndEnqueue TokenType.flowEntry Scanner.ScanFlowEntryBody)
  | ScanClass.blockEntry =>
      Except.ok (s.ScanAndEnqueue TokenType.blockEntry Scanner.ScanBlockEntryBody)
  | ScanClass.keyInd =>
      Except.ok (s.ScanAndEnqueue TokenType.key Scanner.ScanKeyBody)
  | ScanClass.valueInd =>
      Except.ok (s.ScanAndEnqueue TokenType.value Scanner.ScanValueBody)
  | ScanClass.stall => Except.ok s
  | ScanClass.quoted =>
      Except.ok (s.ScanAndEnqueue TokenType.quotedScalar Scanner.ScanQuotedScalarBody)
  | ScanClass.plain =>
      Except.ok (s.ScanAndEnqueue TokenType.plainScalar Scanner.ScanPlainScalarBody)
  | ScanClass.unknown => Except.error ScanError.unknownToken

/-- ScanNextToken (scanner.cpp lines 154-220): a no-op once the stream has
ended; emit StreamStart first if not yet started; otherwise skip to the next
token, validate the pending simple key, reconcile the indentation stack to
the current column, and dispatch on the classification of the position. -/
def Scanner.ScanNextToken (s : Scanner) : Except ScanError Scanner :=
  if s.m_endedStream then Except.ok s
  else if s.m_startedStream = false then
    Except.ok (s.ScanAndEnqueue TokenType.streamStart Scanner.ScanStreamStartBody)
  else
    let s1 := Scanner.ScanToNextTokenF (s.input.length + 1) s
    let s2 := s1.ValidateSimpleKey
    let s3 := s2.PopIndentTo s2.m_column
    s3.dispatch s3.classify

/-- Result of one GetNextToken call: fuel ran out, the scan threw, a token
was handed to the caller, or end of stream. -/
inductive GNTRes where
  | outOfFuel
  | err (e : ScanError)
  | tok (t : Token) (s : Scanner)
  | eos (s : Scanner)
deriving DecidableEq, Repr

/-- GetNextToken (scanner.cpp lines 312-348), fuelled: pop and delete a
Retracted (not-possible) front token and continue; treat a Tentative
(not-valid) front as absent; return a Confirmed front, popping it; with no
available token, stop at end of stream, else scan more input and retry. -/
def getNextTokenF : Nat → Scanner → GNTRes
  | 0, _ => GNTRes.outOfFuel
  | n + 1, s =>
      match s.m_tokens with
      | t :: rest =>
          if t.isPossible = false then getNextTokenF n { s with m_tokens := rest }
          else if t.isValid then GNTRes.tok t { s with m_tokens := rest }
          else if s.m_endedStream then GNTRes.eos s
          else
            match s.ScanNextToken with
            | Except.error e => GNTRes.err e
            | Except.ok s2 => getNextTokenF n s2
      | [] =>
          if s.m_endedStream then GNTRes.eos s
          else
            match s.ScanNextToken with
            | Except.error e => GNTRes.err e
            | Except.ok s2 => getNextTokenF n s2

/-- Driver loop combining GetNextToken with the `Scan()` test driver: collect
the tokens handed to the consumer (who frees them) and the heap identities of
the Retracted tokens that GetNextToken deletes itself, until end of stream,
an error, or fuel exhaustion. -/
def scanLoopF : Nat → Scanner → List Token → List Nat →
    List Token × List Nat × Scanner × Option ScanError
  | 0, s, acc, del => (acc, del, s, none)
  | n + 1, s, acc, del =>
      match s.m_tokens with
      | t :: rest =>
          if t.isPossible = false then
            scanLoopF n { s with m_tokens := rest } acc (t.id :: del)
          else if t.isValid then
            scanLoopF n { s with m_tokens := rest } (acc ++ [t]) del
          else if s.m_endedStream then (acc, del, s, none)
          else
            match s.ScanNextToken with
            | Except.error e => (acc, del, s, some e)
            | Except.ok s2 => scanLoopF n s2 acc del
      | [] =>
          if s.m_endedStream then (acc, del, s, none)
          else
            match s.ScanNextToken with
            | Except.error e => (acc, del, s, some e)
            | Except.ok s2 => scanLoopF n s2 acc del

/-- Scan-only loop: repeated ScanNextToken steps with no dequeuing, so the
queue accumulates every token ever enqueued. -/
def scanAllF : Nat → Scanner → Except ScanError Scanner
  | 0, s => Except.ok s
  | n + 1, s =>
      if s.m_endedStream then Except.ok s
      else
        match s.ScanNextToken with
        | Except.error e => Except.error e
        | Except.ok s2 => scanAllF n s2

/-- Token stream delivered to the consumer for a given input (kind and
scalar text of each token, in delivery order). -/
def tokenize (fuel : Nat) (l : List Char) : List (TokenType × List Char) :=
  (scanLoopF fuel (initScanner l) [] []).1.map fun t => (t.type, t.value)

/-- Errors of the parser embedding: `nullDeref` marks a dereference of a null
token pointer (the unchecked `pToken->type` sites of map.cpp); `outOfFuel`
is the fuel marker of the embedding. -/
inductive PErr where
  | nullDeref
  | outOfFuel
deriving DecidableEq, Repr

/-- Content of a parsed Node (spec section 3): exactly one of
uninstantiated, scalar text, sequence, or mapping. -/
inductive NodeContent where
  | uninstantiated
  | scalar (v : List Char)
  | seq (xs : List NodeContent)
  | map (entries : List (NodeContent × NodeContent))

mutual

/-- Modelled from the spec: Node::Parse of the missing node.cpp peeks the
next token and dispatches by kind to Map parsing, Sequence parsing, or
direct scalar storage; any other kind leaves the node uninstantiated with
the token unconsumed. -/
def Node.ParseF : Nat → List Token → Except PErr (NodeContent × List Token)
  | 0, _ => Except.error PErr.outOfFuel
  | fuel + 1, ts =>
      match ts with
      | [] => Except.ok (NodeContent.uninstantiated, [])
      | t :: rest =>
          match t.type with
          | TokenType.plainScalar => Except.ok (NodeContent.scalar t.value, rest)
          | TokenType.quotedScalar => Except.ok (NodeContent.scalar t.value, rest)
          | TokenType.blockMapStart => Map.ParseF fuel ts
          | TokenType.flowMapStart => Map.ParseF fuel ts
          | TokenType.blockSeqStart => Sequence.ParseF fuel ts
          | TokenType.flowSeqStart => Sequence.ParseF fuel ts
          | _ => Except.ok (NodeContent.uninstantiated, ts)

/-- Map::Parse (map.cpp): grab the start token with GetNextToken and switch
on `pToken->type` WITHOUT a null check — with no token available the null
pointer is dereferenced (`nullDeref`); a kind that is neither mapping start
falls through the switch, leaving the map empty. -/
def Map.ParseF : Nat → List Token → Except PErr (NodeContent × List Token)
  | 0, _ => Except.error PErr.outOfFuel
  | fuel + 1, ts =>
      match ts with
      | [] => Except.error PErr.nullDeref
      | t :: rest =>
          match t.type with
          | TokenType.blockMapStart => Map.ParseBlockF fuel rest []
          | TokenType.flowMapStart => Map.ParseFlowF fuel rest []
          | _ => Except.ok (NodeContent.map [], rest)

/-- Map::ParseBlock (map.cpp): peek; break when absent or neither Key nor
BlockEnd (the `TODO: throw?` branches); pop; stop on BlockEnd; else insert a
key/value placeholder pair, parse the key, and parse the value only when a
Value token follows (the value peek IS null-checked in the source). -/
def Map.ParseBlockF : Nat → List Token → List (NodeContent × NodeContent) →
    Except PErr (NodeContent × List Token)
  | 0, _, _ => Except.error PErr.outOfFuel
  | fuel + 1, ts, acc =>
      match ts with
      | [] => Except.ok (NodeContent.map acc, ts)
      | t :: rest =>
          if t.type = TokenType.blockEnd then Except.ok (NodeContent.map acc, rest)
          else if t.type ≠ TokenType.key then Except.ok (NodeContent.map acc, ts)
          else
            match Node.ParseF fuel rest with
            | Except.error e => Except.error e
            | Except.ok (k, ts1) =>
                match ts1 with
                | v :: ts2 =>
                    if v.type = TokenType.value then
                      match Node.ParseF fuel ts2 with
                      | Except.error e => Except.error e
                      | Except.ok (vn, ts3) => Map.ParseBlockF fuel ts3 (acc ++ [(k, vn)])
                    else Map.ParseBlockF fuel ts1 (acc ++ [(k, NodeContent.uninstantiated)])
                | [] => Map.ParseBlockF fuel ts1 (acc ++ [(k, NodeContent.uninstantiated)])

/-- Map::ParseFlow (map.cpp lines 468-507): peek; break when absent (this
peek IS null-checked); consume FlowMapEnd and stop; break when not a Key
(`TODO: throw?` — no exception is raised); else pop, insert placeholders,
parse key and optional value, then handle the separator. -/
def Map.ParseFlowF : Nat → List Token → List (NodeContent × NodeContent) →
    Except PErr (NodeContent × List Token)
  | 0, _, _ => Except.error PErr.outOfFuel
  | fuel + 1, ts, acc =>
      match ts with
      | [] => Except.ok (NodeContent.map acc, ts)
      | t :: rest =>
          if t.type = TokenType.flowMapEnd then Except.ok (NodeContent.map acc, rest)
          else if t.type ≠ TokenType.key then Except.ok (NodeContent.map acc, ts)
          else
            match Node.ParseF fuel rest with
            | Except.error e => Except.error e
            | Except.ok (k, ts1) =>
                match ts1 with
                | v :: ts2 =>
                    if v.type = TokenType.value then
                      match Node.ParseF fuel ts2 with
                      | Except.error e => Except.error e
                      | Except.ok (vn, ts3) => Map.ParseFlowSepF fuel ts3 (acc ++ [(k, vn)])
                    else Map.ParseFlowSepF fuel ts1 (acc ++ [(k, NodeContent.uninstantiated)])
                | [] => Map.ParseFlowSepF fuel ts1 (acc ++ [(k, NodeContent.uninstantiated)])

/-- Separator step of Map::ParseFlow (map.cpp lines 500-505): the source
peeks and dereferences `pToken->type` WITHOUT a null check — with no token
left this is a null dereference; a FlowEntry is consumed and the loop
continues; a FlowMapEnd is left for the next iteration; anything else breaks
out normally (`TODO: throw?` — no exception is raised). -/
def Map.ParseFlowSepF : Nat → List Token → List (NodeContent × NodeContent) →
    Except PErr (NodeContent × List Token)
  | 0, _, _ => Except.error PErr.outOfFuel
  | fuel + 1, ts, acc =>
      match ts with
      | [] => Except.error PErr.nullDeref
      | u :: rest =>
          if u.type = TokenType.flowEntry then Map.ParseFlowF fuel rest acc
          else if u.type = TokenType.flowMapEnd then Map.ParseFlowF fuel ts acc
          else Except.ok (NodeContent.map acc, ts)

/-- Modelled from the spec: Sequence::Parse of the missing sequence.cpp,
symmetric to Map::Parse. -/
def Sequence.ParseF : Nat → List Token → Except PErr (NodeContent × List Token)
  | 0, _ => Except.error PErr.outOfFuel
  | fuel + 1, ts =>
      match ts with
      | [] => Except.error PErr.nullDeref
      | t :: rest =>
          match t.type with
          | TokenType.blockSeqStart => Sequence.ParseBlockSeqF fuel rest []
          | TokenType.flowSeqStart => Sequence.ParseFlowSeqF fuel rest []
          | _ => Except.ok (NodeContent.seq [], rest)

/-- Modelled from the spec: block-sequence entries, symmetric to ParseBlock. -/
def Sequence.ParseBlockSeqF : Nat → List Token → List NodeContent →
    Except PErr (NodeContent × List Token)
  | 0, _, _ => Except.error PErr.outOfFuel
  | fuel + 1, ts, acc =>
      match ts with
      | [] => Except.ok (NodeContent.seq acc, ts)
      | t :: rest =>
          if t.type = TokenType.blockEnd then Except.ok (NodeContent.seq acc, rest)
          else if t.type ≠ TokenType.blockEntry then Except.ok (NodeContent.seq acc, ts)
          else
            match Node.ParseF fuel rest with
            | Except.error e => Except.error e
            | Except.ok (n, ts1) => Sequence.ParseBlockSeqF fuel ts1 (acc ++ [n])

/-- Modelled from the spec: flow-sequence entries, symmetric to ParseFlow. -/
def Sequence.ParseFlowSeqF : Nat → List Token → List NodeContent →
    Except PErr (NodeContent × List Token)
  | 0, _, _ => Except.error PErr.outOfFuel
  | fuel + 1, ts, acc =>
      match ts with
      | [] => Except.ok (NodeContent.seq acc, ts)
      | t :: rest =>
          if t.type = TokenType.flowSeqEnd then Except.ok (NodeContent.seq acc, rest)
          else
            match Node.ParseF fuel ts with
            | Except.error e => Except.error e
            | Except.ok (n, ts1) =>
                match ts1 with
                | [] => Except.ok (NodeContent.seq (acc ++ [n]), ts1)
                | u :: rest1 =>
                    if u.type = TokenType.flowEntry then
                      Sequence.ParseFlowSeqF fuel rest1 (acc ++ [n])
                    else if u.type = TokenType.flowSeqEnd then
                      Sequence.ParseFlowSeqF fuel ts1 (acc ++ [n])
                    else Except.ok (NodeContent.seq (acc ++ [n]), ts1)

end

/-- Token stream handed to the Node/Map parser for an input: the delivered
tokens after the leading StreamStart. -/
def parserStream (fuel : Nat) (l : List Char) : List Token :=
  ((scanLoopF fuel (initScanner l) [] []).1).drop 1

/-- Projection: number of entries of a normally returned Map parse. -/
def flowParseEntryCount (r : Except PErr (NodeContent × List Token)) : Option Nat :=
  match r with
  | Except.ok (NodeContent.map es, _) => some es.length
  | _ => none

/-- Projection: the first entry of a normally returned Map parse, when both
key and value are scalars. -/
def flowParseFirstEntry (r : Except PErr (NodeContent × List Token)) :
    Option (List Char × List Char) :=
  match r with
  | Except.ok (NodeContent.map ((NodeContent.scalar k, NodeContent.scalar v) :: _), _) =>
      some (k, v)
  | _ => none

/-- Projection: kinds of the tokens left unconsumed by a normal Map parse. -/
def flowParseLeftoverTypes (r : Except PErr (NodeContent × List Token)) :
    Option (List TokenType) :=
  match r with
  | Except.ok (_, rest) => some (rest.map Token.type)
  | _ => none

/-- Token stream the scanner delivers to the parser for `{a: 1 b: 2}`:
note that `b` arrives as a bare plain scalar (no Key token), because after
a confirmed simple key and its value no new simple key is allowed without a
separator. -/
def streamOfMissingSeparator : List Token :=
  [Token.mk TokenType.flowMapStart [] true true 1,
   Token.mk TokenType.key [] true true 3,
   Token.mk TokenType.plainScalar ['a'] true true 2,
   Token.mk TokenType.value [] true true 4,
   Token.mk TokenType.plainScalar ['1'] true true 5,
   Token.mk TokenType.plainScalar ['b'] true true 6,
   Token.mk TokenType.value [] true true 7,
   Token.mk TokenType.plainScalar ['2'] true true 8,
   Token.mk TokenType.flowMapEnd [] true true 9,
   Token.mk TokenType.streamEnd [] true true 10]

/-- Evaluation of the scanner on `{a: 1 b: 2}`. -/
theorem parserStream_missing_separator :
    parserStream 40 ['{', 'a', ':', ' ', '1', ' ', 'b', ':', ' ', '2', '}']
      = streamOfMissingSeparator := by decide

/-- C1 (code evaluated at the failing input): on the token stream of
`{a: 1 b: 2}` Map::ParseFlow does NOT fail — it parses the single entry
a maps to 1, reaches the plain scalar `b` at the separator check, breaks out
of its loop and returns normally, leaving `b: 2}` unconsumed.  No
MalformedMapping error exists on this path in the code. -/
theorem parseFlow_missing_separator_returns_normally :
    flowParseEntryCount
        (Map.ParseF 30 (parserStream 40 ['{', 'a', ':', ' ', '1', ' ', 'b', ':', ' ', '2', '}']))
      = some 1 ∧
    flowParseFirstEntry
        (Map.ParseF 30 (parserStream 40 ['{', 'a', ':', ' ', '1', ' ', 'b', ':', ' ', '2', '}']))
      = some (['a'], ['1']) ∧
    flowParseLeftoverTypes
        (Map.ParseF 30 (parserStream 40 ['{', 'a', ':', ' ', '1', ' ', 'b', ':', ' ', '2', '}']))
      = some [TokenType.plainScalar, TokenType.value, TokenType.plainScalar,
              TokenType.flowMapEnd, TokenType.streamEnd] := by
  rw [parserStream_missing_separator]
  refine ⟨by decide, by decide, by decide⟩

/-- C2 (code evaluated at the failing state): IsWhitespaceToBeEaten eats a
tab whenever `0 <= m_flowLevel` holds — which is every reachable state — so
a tab is eaten even in block context at a position where a simple key is
allowed, where both the claim and the function's own comment require it to
be left alone. -/
theorem isWhitespaceToBeEaten_tab_always_eaten (s : Scanner)
    (h : 0 ≤ s.m_flowLevel) :
    s.IsWhitespaceToBeEaten (some '\t') = true ∧
    s.IsWhitespaceToBeEaten (some ' ') = true := by
  constructor
  · simp [Scanner.IsWhitespaceToBeEaten, h]
  · simp [Scanner.IsWhitespaceToBeEaten]

/-- Block-context scanner state with a simple key allowed and a tab at the
cursor: the state the C2 claim says must not eat the tab. -/
def tabBlockState : Scanner :=
  { initScanner ['\t', 'a', ':', ' ', '1'] with
    m_startedStream := true, m_simpleKeyAllowed := true,
    m_indents := [-1], nextId := 1 }

/-- Witness for C2: at the concrete block-context state with a simple key
allowed, the code still eats the tab. -/
theorem isWhitespaceToBeEaten_tab_always_eaten_witness :
    (0 : Int) ≤ tabBlockState.m_flowLevel ∧
    tabBlockState.m_flowLevel = 0 ∧
    tabBlockState.m_simpleKeyAllowed = true ∧
    tabBlockState.IsWhitespaceToBeEaten (some '\t') = true :=
  ⟨by decide, by decide, by decide,
    (isWhitespaceToBeEaten_tab_always_eaten tabBlockState (by decide)).1⟩

/-- C6: tokenizing `[1,2]` delivers exactly StreamStart, FlowSeqStart,
PlainScalar "1", FlowEntry, PlainScalar "2", FlowSeqEnd, StreamEnd — so
apart from the promised StreamStart/StreamEnd bracket, exactly the five
claimed tokens in the claimed order. -/
theorem tokenize_flow_sequence_exact :
    tokenize 60 ['[', '1', ',', '2', ']'] =
      [(TokenType.streamStart, []), (TokenType.flowSeqStart, []),
       (TokenType.plainScalar, ['1']), (TokenType.flowEntry, []),
       (TokenType.plainScalar, ['2']), (TokenType.flowSeqEnd, []),
       (TokenType.streamEnd, [])] ∧
    (tokenize 60 ['[', '1', ',', '2', ']']).filter
        (fun p => decide (p.1 ≠ TokenType.streamStart ∧ p.1 ≠ TokenType.streamEnd)) =
      [(TokenType.flowSeqStart, []), (TokenType.plainScalar, ['1']),
       (TokenType.flowEntry, []), (TokenType.plainScalar, ['2']),
       (TokenType.flowSeqEnd, [])] := by
  refine ⟨by decide, by decide⟩

/-- Token stream the scanner delivers to the parser for the well-formed
`{a: 1}`. -/
def streamOfSmallFlowMap : List Token :=
  [Token.mk TokenType.flowMapStart [] true true 1,
   Token.mk TokenType.key [] true true 3,
   Token.mk TokenType.plainScalar ['a'] true true 2,
   Token.mk TokenType.value [] true true 4,
   Token.mk TokenType.plainScalar ['1'] true true 5,
   Token.mk TokenType.flowMapEnd [] true true 6,
   Token.mk TokenType.streamEnd [] true true 7]

/-- Evaluation of the scanner on `{a: 1}`. -/
theorem parserStream_small_flow_map :
    parserStream 40 ['{', 'a', ':', ' ', '1', '}'] = streamOfSmallFlowMap := by decide

/-- C9: Map::Parse switches on `pToken->type` with no null check, so with no
token available (end of stream, empty queue) the null branch is reached;
likewise the separator peek of Map::ParseFlow after an entry dereferences
without a null check, reached when the stream ends right after a parsed
entry.  On a well-formed stream such as that of `{a: 1}` neither dereference
fails. -/
theorem mapParse_unchecked_null_dereference :
    Map.ParseF 10 [] = Except.error PErr.nullDeref ∧
    Map.ParseFlowF 10
        [Token.mk TokenType.key [] true true 0,
         Token.mk TokenType.plainScalar ['a'] true true 1] []
      = Except.error PErr.nullDeref ∧
    flowParseEntryCount (Map.ParseF 30 (parserStream 40 ['{', 'a', ':', ' ', '1', '}']))
      = some 1 :=
  ⟨rfl, rfl, by rw [parserStream_small_flow_map]; decide⟩

/-- C10: when PushIndentTo actually pushes, the new BlockSeqStart or
BlockMapStart token is appended at the BACK of the queue while the returned
pointer is `m_tokens.front()`; the returned token is the newly enqueued one
exactly when the queue was empty immediately before the call, and otherwise
it is an older, already-queued token. -/
theorem pushIndentTo_returns_queue_front (s : Scanner) (col : Int) (sq : Bool)
    (hf : s.m_flowLevel ≤ 0) (hc : s.m_indents.headI < col)
    (hid : ∀ t ∈ s.m_tokens, t.id ≠ s.nextId) :
    (s.PushIndentTo col sq).2.m_tokens = s.m_tokens ++
      [Token.mk (if sq then TokenType.blockSeqStart else TokenType.blockMapStart)
        [] true true s.nextId] ∧
    (s.PushIndentTo col sq).1 = (s.m_tokens ++
      [Token.mk (if sq then TokenType.blockSeqStart else TokenType.blockMapStart)
        [] true true s.nextId]).head? ∧
    ((s.PushIndentTo col sq).1 =
        some (Token.mk (if sq then TokenType.blockSeqStart else TokenType.blockMapStart)
          [] true true s.nextId)
      ↔ s.m_tokens = []) := by
  have h1 : ¬(0 < s.m_flowLevel) := by omega
  have h2 : ¬(col ≤ s.m_indents.headI) := by omega
  refine ⟨?_, ?_, ?_⟩
  · simp [Scanner.PushIndentTo, Scanner.newToken, h1, h2]
  · simp [Scanner.PushIndentTo, Scanner.newToken, h1, h2]
  · simp only [Scanner.PushIndentTo, Scanner.newToken, if_neg h1, if_neg h2]
    rcases hq : s.m_tokens with _ | ⟨t, rest⟩
    · simp
    · simp only [List.cons_append, List.head?_cons, Option.some.injEq]
      constructor
      · intro heq
        have hmem : t ∈ s.m_tokens := by rw [hq]; exact List.mem_cons_self t rest
        have hne := hid t hmem
        have : t.id = s.nextId := by rw [heq]
        exact absurd this hne
      · intro hcontra
        exact absurd hcontra (by simp)

/-- Witness for C10: concrete state whose queue already holds the delivered
StreamStart token — the returned front is that older token, not the new
BlockMapStart. -/
def pushWitnessState : Scanner :=
  { initScanner ['a'] with
    m_startedStream := true, m_simpleKeyAllowed := true,
    m_indents := [-1],
    m_tokens := [Token.mk TokenType.streamStart [] true true 0], nextId := 1 }

/-- Witness for C10 at a concrete state with a nonempty queue. -/
theorem pushIndentTo_returns_queue_front_witness :
    pushWitnessState.m_flowLevel ≤ 0 ∧
    pushWitnessState.m_indents.headI < 0 + 1 ∧
    ((pushWitnessState.PushIndentTo (0 + 1) false).1 =
        some (Token.mk TokenType.blockMapStart [] true true pushWitnessState.nextId)
      ↔ pushWitnessState.m_tokens = []) :=
  ⟨by decide, by decide,
    (pushIndentTo_returns_queue_front pushWitnessState (0 + 1) false
      (by decide) (by decide) (by decide)).2.2⟩

/-- Predicate used by GetNextToken to drop Retracted tokens. -/
def notPossible (t : Token) : Bool := !t.isPossible

/-- C3 (amended): GetNextToken permanently discards a Retracted front token;
treats a Tentative front token as absent, scanning more input without
discarding it; returns (and pops) a Confirmed front token; and, once the
stream has ended, it returns the first Confirmed token when one precedes
every Tentative token, and returns nothing exactly when, after discarding
the leading Retracted tokens, the queue is empty OR its front is Tentative
(the Tentative token is not removed) — so the queue need not be empty when
it returns nothing. -/
theorem getNextToken_queue_behaviour :
    (∀ (n : Nat) (s : Scanner) (t : Token) (rest : List Token),
        s.m_tokens = t :: rest → t.isPossible = false →
        getNextTokenF (n + 1) s = getNextTokenF n { s with m_tokens := rest }) ∧
    (∀ (n : Nat) (s : Scanner) (t : Token) (rest : List Token),
        s.m_tokens = t :: rest → t.isPossible = true → t.isValid = false →
        s.m_endedStream = false →
        getNextTokenF (n + 1) s =
          (match s.ScanNextToken with
            | Except.error e => GNTRes.err e
            | Except.ok s2 => getNextTokenF n s2)) ∧
    (∀ (n : Nat) (s : Scanner) (t : Token) (rest : List Token),
        s.m_tokens = t :: rest → t.isPossible = true → t.isValid = true →
        getNextTokenF (n + 1) s = GNTRes.tok t { s with m_tokens := rest }) ∧
    (∀ (n : Nat) (s : Scanner),
        s.m_endedStream = true → s.m_tokens.length < n →
        getNextTokenF n s =
          (match (s.m_tokens.dropWhile notPossible).head? with
            | none => GNTRes.eos { s with m_tokens := s.m_tokens.dropWhile notPossible }
            | some t =>
                if t.isValid then
                  GNTRes.tok t { s with m_tokens := (s.m_tokens.dropWhile notPossible).tail }
                else GNTRes.eos { s with m_tokens := s.m_tokens.dropWhile notPossible })) := by
  refine ⟨?_, ?_, ?_, ?_⟩
  · intro n s t rest h hp
    simp [getNextTokenF, h, hp]
  · intro n s t rest h hp hv hend
    simp [getNextTokenF, h, hp, hv, hend]
  · intro n s t rest h hp hv
    simp [getNextTokenF, h, hp, hv]
  · intro n
    induction n with
    | zero => intro s _ hlen; omega
    | succ n ih =>
        intro s hend hlen
        obtain ⟨inp, st, en, ska, fl, ln, col, ind, toks, limbo, nid, pk⟩ := s
        simp only [] at hend hlen
        subst hend
        rcases toks with _ | ⟨t, rest⟩
        · simp [getNextTokenF]
        · rcases hp : t.isPossible with _ | _
          · have step : getNextTokenF (n + 1)
                  (Scanner.mk inp st true ska fl ln col ind (t :: rest) limbo nid pk)
                = getNextTokenF n
                  (Scanner.mk inp st true ska fl ln col ind rest limbo nid pk) := by
              simp [getNextTokenF, hp]
            have hlen2 :
                (Scanner.mk inp st true ska fl ln col ind rest limbo nid pk).m_tokens.length
                  < n := by
              simp only [List.length_cons] at hlen ⊢
              omega
            rw [step, ih _ rfl hlen2]
            simp [List.dropWhile_cons, notPossible, hp]
          · rcases hv : t.isValid with _ | _
            · simp [getNextTokenF, hp, hv, List.dropWhile_cons, notPossible]
            · simp [getNextTokenF, hp, hv, List.dropWhile_cons, notPossible]

/-- Scanner state at end of stream whose queue still holds one Tentative
(possible, not yet valid) Key token. -/
def endedTentativeState : Scanner :=
  Scanner.mk [] true true false 0 0 0 [-1]
    [Token.mk TokenType.key [] true false 0] [] 1 none

/-- Counterexample for C3: at end of stream with a Tentative token at the
front of the queue, GetNextToken returns nothing although the queue is NOT
empty (and stays nonempty: the Tentative token is not discarded) — refuting
that it returns nothing exactly when the queue is empty. -/
theorem getNextToken_none_with_nonempty_queue :
    getNextTokenF 5 endedTentativeState = GNTRes.eos endedTentativeState ∧
    endedTentativeState.m_endedStream = true ∧
    endedTentativeState.m_tokens ≠ [] := by decide

/-- Scanner state at end of stream with one Confirmed token queued. -/
def endedConfirmedState : Scanner :=
  Scanner.mk [] true true false 0 0 0 [-1]
    [Token.mk TokenType.plainScalar ['x'] true true 0] [] 1 none

/-- Witness for C3: the end-of-stream characterization applied at a concrete
state with one Confirmed token, which is handed out. -/
theorem getNextToken_queue_behaviour_witness :
    endedConfirmedState.m_endedStream = true ∧
    endedConfirmedState.m_tokens.length < 3 ∧
    getNextTokenF 3 endedConfirmedState =
      GNTRes.tok (Token.mk TokenType.plainScalar ['x'] true true 0)
        { endedConfirmedState with m_tokens := [] } :=
  ⟨by decide, by decide, by
    have h := getNextToken_queue_behaviour.2.2.2 3 endedConfirmedState (by decide) (by decide)
    exact h.trans (by decide)⟩

/-- Well-formed indentation stack: nonempty, sentinel -1 at the bottom, and
strictly increasing bottom-to-top (the top is the head, so the list is
strictly decreasing front-to-back). -/
def GoodStack (l : List Int) : Prop :=
  l ≠ [] ∧ l.getLast? = some (-1) ∧ l.Chain' (fun a b => b < a)

/-- Token map that changes only the status booleans. -/
def TokStatusOnly (f : Token → Token) : Prop :=
  ∀ t, (f t).id = t.id ∧ (f t).type = t.type ∧ (f t).value = t.value

/-- Number of tokens of the given kind in a queue. -/
def countType (ty : TokenType) (l : List Token) : Nat :=
  (l.filter fun t => decide (t.type = ty)).length

/-- Frame of the input-consuming helpers: only the cursor advances — the
remaining input is a suffix of the old one, a nonnegative column stays
nonnegative, and every other scanner field is untouched. -/
def MoveOnly (s s' : Scanner) : Prop :=
  s'.input <:+ s.input ∧
  (0 ≤ s.m_column → 0 ≤ s'.m_column) ∧
  s'.m_startedStream = s.m_startedStream ∧
  s'.m_endedStream = s.m_endedStream ∧
  s'.m_simpleKeyAllowed = s.m_simpleKeyAllowed ∧
  s'.m_flowLevel = s.m_flowLevel ∧
  s'.m_indents = s.m_indents ∧
  s'.m_tokens = s.m_tokens ∧
  s'.m_limboTokens = s.m_limboTokens ∧
  s'.nextId = s.nextId ∧
  s'.pendingKey = s.pendingKey

/-- Frame of the simple-key status helpers: only token statuses and the
pending slot change. -/
def StatusOnly (s s' : Scanner) : Prop :=
  s'.input = s.input ∧
  s'.m_column = s.m_column ∧
  s'.m_startedStream = s.m_startedStream ∧
  s'.m_endedStream = s.m_endedStream ∧
  s'.m_simpleKeyAllowed = s.m_simpleKeyAllowed ∧
  s'.m_flowLevel = s.m_flowLevel ∧
  s'.m_indents = s.m_indents ∧
  s'.m_limboTokens = s.m_limboTokens ∧
  s'.nextId = s.nextId ∧
  (∃ f, TokStatusOnly f ∧ s'.m_tokens = s.m_tokens.map f)

/-- Frame of ScanToNextToken: cursor movement plus token-status updates. -/
def SkipFrame (s s' : Scanner) : Prop :=
  s'.input <:+ s.input ∧
  (0 ≤ s.m_column → 0 ≤ s'.m_column) ∧
  s'.m_startedStream = s.m_startedStream ∧
  s'.m_endedStream = s.m_endedStream ∧
  s'.m_flowLevel = s.m_flowLevel ∧
  s'.m_indents = s.m_indents ∧
  s'.m_limboTokens = s.m_limboTokens ∧
  s'.nextId = s.nextId ∧
  (∃ f, TokStatusOnly f ∧ s'.m_tokens = s.m_tokens.map f)

theorem moveOnly_refl (s : Scanner) : MoveOnly s s :=
  ⟨List.suffix_refl _, fun h => h, rfl, rfl, rfl, rfl, rfl, rfl, rfl, rfl, rfl⟩

theorem MoveOnly.mtrans {s1 s2 s3 : Scanner} (h1 : MoveOnly s1 s2) (h2 : MoveOnly s2 s3) :
    MoveOnly s1 s3 := by
  obtain ⟨a1, b1, c1, d1, e1, f1, g1, h1t, i1, j1, k1⟩ := h1
  obtain ⟨a2, b2, c2, d2, e2, f2, g2, h2t, i2, j2, k2⟩ := h2
  exact ⟨a2.trans a1, fun h => b2 (b1 h), c2.trans c1, d2.trans d1, e2.trans e1,
    f2.trans f1, g2.trans g1, h2t.trans h1t, i2.trans i1, j2.trans j1, k2.trans k1⟩

theorem moveOnly_GetChar (s : Scanner) : MoveOnly s s.GetChar := by
  unfold Scanner.GetChar
  rcases h : s.input with _ | ⟨c, rest⟩
  · simp only [h]
    refine ⟨List.nil_suffix, fun hc => ?_, rfl, rfl, rfl, rfl, rfl, rfl, rfl, rfl, rfl⟩
    simp only []
    omega
  · simp only [h]
    by_cases hc : c = '\n'
    · rw [if_pos hc]
      refine ⟨?_, fun _ => ?_, rfl, rfl, rfl, rfl, rfl, rfl, rfl, rfl, rfl⟩
      · rw [h]
        exact List.suffix_cons _ _
      · simp only []
        omega
    · rw [if_neg hc]
      refine ⟨?_, fun hcl => ?_, rfl, rfl, rfl, rfl, rfl, rfl, rfl, rfl, rfl⟩
      · rw [h]
        exact List.suffix_cons _ _
      · simp only []
        omega

theorem moveOnly_Eat (s : Scanner) (n : Nat) : MoveOnly s (s.Eat n) := by
  induction n generalizing s with
  | zero => exact moveOnly_refl s
  | succ n ih => exact (moveOnly_GetChar s).mtrans (ih s.GetChar)

theorem moveOnly_EatLineBreak (s : Scanner) : MoveOnly s s.EatLineBreak := by
  have h := moveOnly_Eat s 1
  unfold Scanner.EatLineBreak
  obtain ⟨a, b, c, d, e, f, g, ht, i, j, k⟩ := h
  exact ⟨a, fun _ => by simp, c, d, e, f, g, ht, i, j, k⟩

theorem moveOnly_eatWhitespaceF (n : Nat) (s : Scanner) :
    MoveOnly s (Scanner.eatWhitespaceF n s) := by
  induction n generalizing s with
  | zero => exact moveOnly_refl s
  | succ n ih =>
      unfold Scanner.eatWhitespaceF
      by_cases h : s.IsWhitespaceToBeEaten s.input.head? = true
      · rw [if_pos h]
        exact (moveOnly_Eat s 1).mtrans (ih (s.Eat 1))
      · rw [if_neg h]
        exact moveOnly_refl s

theorem moveOnly_eatCommentF (n : Nat) (s : Scanner) :
    MoveOnly s (Scanner.eatCommentF n s) := by
  induction n generalizing s with
  | zero => exact moveOnly_refl s
  | succ n ih =>
      unfold Scanner.eatCommentF
      by_cases h : s.input ≠ [] ∧ ¬expBreak s.input
      · rw [if_pos h]
        exact (moveOnly_Eat s 1).mtrans (ih (s.Eat 1))
      · rw [if_neg h]
        exact moveOnly_refl s

theorem tokStatusOnly_id : TokStatusOnly id := fun _ => ⟨rfl, rfl, rfl⟩

theorem tokStatusOnly_comp {f g : Token → Token} (hf : TokStatusOnly f)
    (hg : TokStatusOnly g) : TokStatusOnly (g ∘ f) := by
  intro t
  obtain ⟨hf1, hf2, hf3⟩ := hf t
  obtain ⟨hg1, hg2, hg3⟩ := hg (f t)
  exact ⟨hg1.trans hf1, hg2.trans hf2, hg3.trans hf3⟩

theorem statusOnly_setImpossible (s : Scanner) (i : Nat) (pk : Option SimpleKey) :
    StatusOnly s { s with m_tokens := setTokenImpossibleById i s.m_tokens, pendingKey := pk } := by
  refine ⟨rfl, rfl, rfl, rfl, rfl, rfl, rfl, rfl, rfl,
    ⟨fun t => if t.id = i then { t with isPossible := false } else t, ?_, rfl⟩⟩
  intro t
  by_cases h : t.id = i <;> simp [h]

theorem statusOnly_rfl (s : Scanner) : StatusOnly s s :=
  ⟨rfl, rfl, rfl, rfl, rfl, rfl, rfl, rfl, rfl, ⟨id, tokStatusOnly_id, by simp⟩⟩

theorem StatusOnly.strans {s1 s2 s3 : Scanner} (h1 : StatusOnly s1 s2)
    (h2 : StatusOnly s2 s3) : StatusOnly s1 s3 := by
  obtain ⟨a1, b1, c1, d1, e1, f1, g1, i1, j1, f, hf, ht1⟩ := h1
  obtain ⟨a2, b2, c2, d2, e2, f2, g2, i2, j2, g, hg, ht2⟩ := h2
  exact ⟨a2.trans a1, b2.trans b1, c2.trans c1, d2.trans d1, e2.trans e1, f2.trans f1,
    g2.trans g1, i2.trans i1, j2.trans j1,
    ⟨g ∘ f, tokStatusOnly_comp hf hg, by rw [ht2, ht1, List.map_map]⟩⟩

theorem statusOnly_retractPending (s : Scanner) : StatusOnly s s.retractPending := by
  unfold Scanner.retractPending
  rcases h : s.pendingKey with _ | k
  · exact statusOnly_rfl s
  · rcases hm : k.mapStartId with _ | i <;> simp only [hm]
    · exact statusOnly_setImpossible s k.keyId none
    · exact (statusOnly_setImpossible s k.keyId (some k)).strans
        (statusOnly_setImpossible
          { s with m_tokens := setTokenImpossibleById k.keyId s.m_tokens,
                   pendingKey := some k } i none)

theorem statusOnly_setValid (s : Scanner) (i : Nat) (pk : Option SimpleKey) :
    StatusOnly s { s with m_tokens := setTokenValidById i s.m_tokens, pendingKey := pk } := by
  refine ⟨rfl, rfl, rfl, rfl, rfl, rfl, rfl, rfl, rfl,
    ⟨fun t => if t.id = i then { t with isValid := true } else t, ?_, rfl⟩⟩
  intro t
  by_cases h : t.id = i <;> simp [h]

theorem statusOnly_confirmPending (s : Scanner) : StatusOnly s s.confirmPending := by
  unfold Scanner.confirmPending
  rcases h : s.pendingKey with _ | k
  · exact statusOnly_rfl s
  · rcases hm : k.mapStartId with _ | i <;> simp only [hm]
    · exact statusOnly_setValid s k.keyId none
    · exact (statusOnly_setValid s k.keyId (some k)).strans
        (statusOnly_setValid
          { s with m_tokens := setTokenValidById k.keyId s.m_tokens,
                   pendingKey := some k } i none)

theorem statusOnly_ValidateSimpleKey (s : Scanner) : StatusOnly s s.ValidateSimpleKey := by
  unfold Scanner.ValidateSimpleKey
  rcases h : s.pendingKey with _ | k
  · exact statusOnly_rfl s
  · show StatusOnly s (if k.reachable s = true then s else s.retractPending)
    by_cases hr : k.reachable s = true
    · rw [if_pos hr]
      exact statusOnly_rfl s
    · rw [if_neg hr]
      exact statusOnly_retractPending s

theorem MoveOnly.mskip {s s' : Scanner} (h : MoveOnly s s') : SkipFrame s s' := by
  obtain ⟨a, b, c, d, e, f, g, ht, i, j, k⟩ := h
  exact ⟨a, b, c, d, f, g, i, j, ⟨id, tokStatusOnly_id, by rw [ht]; simp⟩⟩

theorem StatusOnly.sskip {s s' : Scanner} (h : StatusOnly s s') : SkipFrame s s' := by
  obtain ⟨a, b, c, d, e, f, g, i, j, fm, hfm, ht⟩ := h
  exact ⟨a ▸ List.suffix_refl _, fun hc => b ▸ hc, c, d, f, g, i, j, ⟨fm, hfm, ht⟩⟩

theorem skipFrame_refl (s : Scanner) : SkipFrame s s :=
  (moveOnly_refl s).mskip

theorem SkipFrame.ktrans {s1 s2 s3 : Scanner} (h1 : SkipFrame s1 s2)
    (h2 : SkipFrame s2 s3) : SkipFrame s1 s3 := by
  obtain ⟨a1, b1, c1, d1, e1, f1, g1, i1, fm1, hf1, ht1⟩ := h1
  obtain ⟨a2, b2, c2, d2, e2, f2, g2, i2, fm2, hf2, ht2⟩ := h2
  exact ⟨a2.trans a1, fun h => b2 (b1 h), c2.trans c1, d2.trans d1, e2.trans e1,
    f2.trans f1, g2.trans g1, i2.trans i1,
    ⟨fm2 ∘ fm1, tokStatusOnly_comp hf1 hf2, by rw [ht2, ht1, List.map_map]⟩⟩

theorem skipFrame_set_simpleKeyAllowed (s : Scanner) (b : Bool) :
    SkipFrame s { s with m_simpleKeyAllowed := b } :=
  ⟨List.suffix_refl _, fun h => h, rfl, rfl, rfl, rfl, rfl, rfl,
    ⟨id, tokStatusOnly_id, by simp⟩⟩

theorem skipFrame_ScanToNextTokenF (n : Nat) (s : Scanner) :
    SkipFrame s (Scanner.ScanToNextTokenF n s) := by
  induction n generalizing s with
  | zero => exact skipFrame_refl s
  | succ n ih =>
      unfold Scanner.ScanToNextTokenF
      have h1 : SkipFrame s (Scanner.eatWhitespaceF s.input.length s) :=
        (moveOnly_eatWhitespaceF s.input.length s).mskip
      set s1 := Scanner.eatWhitespaceF s.input.length s with hs1
      have h2 : SkipFrame s (if expComment s1.input then
          Scanner.eatCommentF s1.input.length s1 else s1) := by
        by_cases hcm : expComment s1.input = true
        · rw [if_pos hcm]
          exact h1.ktrans (moveOnly_eatCommentF s1.input.length s1).mskip
        · rw [if_neg hcm]
          exact h1
      set s2 := if expComment s1.input then Scanner.eatCommentF s1.input.length s1 else s1
        with hs2
      by_cases hbr : expBreak s2.input = true
      · rw [if_pos hbr]
        have h3 : SkipFrame s s2.EatLineBreak := h2.ktrans (moveOnly_EatLineBreak s2).mskip
        have h4 : SkipFrame s s2.EatLineBreak.ValidateSimpleKey :=
          h3.ktrans (statusOnly_ValidateSimpleKey s2.EatLineBreak).sskip
        set s4 := s2.EatLineBreak.ValidateSimpleKey with hs4
        have h5 : SkipFrame s (if s4.m_flowLevel = 0 then
            { s4 with m_simpleKeyAllowed := true } else s4) := by
          by_cases hfl : s4.m_flowLevel = 0
          · rw [if_pos hfl]
            exact h4.ktrans (skipFrame_set_simpleKeyAllowed s4 true)
          · rw [if_neg hfl]
            exact h4
        exact h5.ktrans (ih _)
      · rw [if_neg hbr]
        exact h2

theorem pushIndentTo_cases (s : Scanner) (col : Int) (sq : Bool) :
    ((s.PushIndentTo col sq).2 = s ∧ (s.PushIndentTo col sq).1 = none) ∨
    (¬0 < s.m_flowLevel ∧ s.m_indents.headI < col ∧
      (s.PushIndentTo col sq).2 =
        { s with m_indents := col :: s.m_indents,
                 m_tokens := s.m_tokens ++
                   [Token.mk (if sq then TokenType.blockSeqStart else TokenType.blockMapStart)
                     [] true true s.nextId],
                 nextId := s.nextId + 1 } ∧
      (s.PushIndentTo col sq).1 ≠ none) := by
  unfold Scanner.PushIndentTo
  by_cases h1 : 0 < s.m_flowLevel
  · rw [if_pos h1]
    exact Or.inl ⟨rfl, rfl⟩
  · rw [if_neg h1]
    by_cases h2 : col ≤ s.m_indents.headI
    · rw [if_pos h2]
      exact Or.inl ⟨rfl, rfl⟩
    · rw [if_neg h2]
      refine Or.inr ⟨h1, by omega, ?_, ?_⟩
      · rfl
      · simp [Scanner.newToken]

theorem goodStack_push {l : List Int} {col : Int} (h : GoodStack l) (hc : l.headI < col) :
    GoodStack (col :: l) := by
  obtain ⟨hne, hlast, hchain⟩ := h
  rcases l with _ | ⟨a, rest⟩
  · exact absurd rfl hne
  · refine ⟨by simp, ?_, ?_⟩
    · rw [List.getLast?_cons_cons]
      exact hlast
    · rw [List.chain'_cons']
      refine ⟨?_, hchain⟩
      intro b hb
      simp only [List.head?_cons, Option.mem_def, Option.some.injEq] at hb
      subst hb
      simpa using hc

theorem popIndents_spec (col : Int) : ∀ (ind : List Int) (toks : List Token) (nid : Nat),
    ∃ k, (popIndents col ind toks nid).1 = ind.drop k ∧
      k ≤ ind.length ∧
      (popIndents col ind toks nid).2.2 = nid + k ∧
      ∃ ends, (popIndents col ind toks nid).2.1 = toks ++ ends ∧
        ends.length = k ∧
        (∀ u ∈ ends, u.type = TokenType.blockEnd ∧ u.isPossible = true ∧ u.isValid = true ∧
          nid ≤ u.id ∧ u.id < nid + k) ∧
        (∀ i, nid ≤ i → i < nid + k → ∃ u ∈ ends, u.id = i) := by
  intro ind
  induction ind with
  | nil =>
      intro toks nid
      exact ⟨0, by simp [popIndents]⟩
  | cons top rest ih =>
      intro toks nid
      by_cases h : col < top
      · obtain ⟨k, hdrop, hkle, hnid, ends, hends, hlen, hprop, hcov⟩ :=
          ih (toks ++ [Token.mk TokenType.blockEnd [] true true nid]) (nid + 1)
        refine ⟨k + 1, ?_, ?_, ?_, ?_⟩
        · rw [show popIndents col (top :: rest) toks nid =
              popIndents col rest (toks ++ [Token.mk TokenType.blockEnd [] true true nid])
                (nid + 1) by simp [popIndents, h]]
          simpa using hdrop
        · simp
          omega
        · rw [show popIndents col (top :: rest) toks nid =
              popIndents col rest (toks ++ [Token.mk TokenType.blockEnd [] true true nid])
                (nid + 1) by simp [popIndents, h]]
          omega
        · refine ⟨Token.mk TokenType.blockEnd [] true true nid :: ends, ?_, ?_, ?_, ?_⟩
          · rw [show popIndents col (top :: rest) toks nid =
                popIndents col rest (toks ++ [Token.mk TokenType.blockEnd [] true true nid])
                  (nid + 1) by simp [popIndents, h]]
            rw [hends]
            simp
          · simp [hlen]
          · intro u hu
            rcases List.mem_cons.mp hu with h1 | h2
            · subst h1
              refine ⟨rfl, rfl, rfl, le_refl _, ?_⟩
              show nid < nid + (k + 1)
              omega
            · obtain ⟨p1, p2, p3, p4, p5⟩ := hprop u h2
              exact ⟨p1, p2, p3, by omega, by omega⟩
          · intro i hi1 hi2
            by_cases hieq : i = nid
            · exact ⟨Token.mk TokenType.blockEnd [] true true nid, List.mem_cons_self _ _,
                hieq.symm⟩
            · obtain ⟨u, hu, hui⟩ := hcov i (by omega) (by omega)
              exact ⟨u, List.mem_cons_of_mem _ hu, hui⟩
      · refine ⟨0, ?_, by omega, ?_, ⟨[], ?_, rfl, by simp, by omega⟩⟩
        · simp [popIndents, h]
        · simp [popIndents, h]
        · simp [popIndents, h]

theorem goodStack_popIndents (col : Int) (hcol : -1 ≤ col) :
    ∀ (ind : List Int) (toks : List Token) (nid : Nat), GoodStack ind →
      GoodStack (popIndents col ind toks nid).1 := by
  intro ind
  induction ind with
  | nil =>
      intro toks nid h
      exact absurd rfl h.1
  | cons top rest ih =>
      intro toks nid h
      obtain ⟨hne, hlast, hchain⟩ := h
      by_cases hlt : col < top
      · rcases rest with _ | ⟨b, rest2⟩
        · -- singleton: top is the sentinel -1, contradicting -1 <= col < top
          simp only [List.getLast?_singleton, Option.some.injEq] at hlast
          omega
        · rw [show popIndents col (top :: b :: rest2) toks nid =
              popIndents col (b :: rest2)
                (toks ++ [Token.mk TokenType.blockEnd [] true true nid]) (nid + 1) by
              simp [popIndents, hlt]]
          refine ih _ _ ⟨by simp, ?_, (List.chain'_cons'.mp hchain).2⟩
          rw [List.getLast?_cons_cons] at hlast
          exact hlast
      · rw [show popIndents col (top :: rest) toks nid = (top :: rest, toks, nid) by
          simp [popIndents, hlt]]
        exact ⟨hne, hlast, hchain⟩

theorem popIndentTo_fields (s : Scanner) (col : Int) :
    (s.PopIndentTo col = s ∧ 0 < s.m_flowLevel) ∨
    (¬0 < s.m_flowLevel ∧
      s.PopIndentTo col =
        { s with m_indents := (popIndents col s.m_indents s.m_tokens s.nextId).1,
                 m_tokens := (popIndents col s.m_indents s.m_tokens s.nextId).2.1,
                 nextId := (popIndents col s.m_indents s.m_tokens s.nextId).2.2 }) := by
  unfold Scanner.PopIndentTo
  by_cases h : 0 < s.m_flowLevel
  · rw [if_pos h]
    exact Or.inl ⟨rfl, h⟩
  · rw [if_neg h]
    exact Or.inr ⟨h, rfl⟩

theorem countType_nil (ty : TokenType) : countType ty [] = 0 := rfl

theorem countType_append (ty : TokenType) (a b : List Token) :
    countType ty (a ++ b) = countType ty a + countType ty b := by
  simp [countType, List.filter_append]

theorem countType_map {f : Token → Token} (hf : TokStatusOnly f) (ty : TokenType)
    (l : List Token) : countType ty (l.map f) = countType ty l := by
  unfold countType
  induction l with
  | nil => rfl
  | cons t rest ih =>
      simp only [List.map_cons, List.filter_cons, (hf t).2.1]
      split
      · simpa using ih
      · exact ih

/-- Relation describing one scan step from a well-formed started state: the
input only shrinks, the column stays nonnegative, fresh heap identities are
allocated contiguously, an empty limbo set stays empty, token statuses of
already-queued tokens may change but nothing else about them, every freshly
allocated token is enqueued, the block start/end token counts move together
with the indentation-stack depth, and the stack stays well-formed.  The
parameter bounds how many non-BlockEnd and block-start tokens the step may
enqueue. -/
def ScanStepRel (c : Nat) (s s' : Scanner) : Prop :=
  s'.input <:+ s.input ∧
  0 ≤ s'.m_column ∧
  s.nextId ≤ s'.nextId ∧
  (s.m_limboTokens = [] → s'.m_limboTokens = []) ∧
  s'.m_startedStream = s.m_startedStream ∧
  GoodStack s'.m_indents ∧
  ∃ f new, TokStatusOnly f ∧ s'.m_tokens = s.m_tokens.map f ++ new ∧
    (∀ u ∈ new, u.id < s'.nextId) ∧
    (∀ i, s.nextId ≤ i → i < s'.nextId → ∃ u ∈ new, u.id = i) ∧
    (countType TokenType.blockSeqStart new + countType TokenType.blockMapStart new
        + s.m_indents.length
      = countType TokenType.blockEnd new + s'.m_indents.length) ∧
    ((new.filter fun u => decide (u.type ≠ TokenType.blockEnd)).length
        + countType TokenType.blockSeqStart new
        + countType TokenType.blockMapStart new ≤ c)

theorem ScanStepRel.rmono {c c' : Nat} {s s' : Scanner} (h : ScanStepRel c s s')
    (hc : c ≤ c') : ScanStepRel c' s s' := by
  obtain ⟨a, b, d, e, g, gs, f, new, h1, h2, h3, h4, h5, h6⟩ := h
  exact ⟨a, b, d, e, g, gs, f, new, h1, h2, h3, h4, h5, by omega⟩

theorem ScanStepRel.rtrans {c1 c2 : Nat} {s1 s2 s3 : Scanner}
    (h1 : ScanStepRel c1 s1 s2) (h2 : ScanStepRel c2 s2 s3) :
    ScanStepRel (c1 + c2) s1 s3 := by
  obtain ⟨a1, b1, d1, e1, g1, gs1, f1, new1, hf1, ht1, hid1, hcov1, hcnt1, hb1⟩ := h1
  obtain ⟨a2, b2, d2, e2, g2, gs2, f2, new2, hf2, ht2, hid2, hcov2, hcnt2, hb2⟩ := h2
  refine ⟨a2.trans a1, b2, d1.trans d2, fun h => e2 (e1 h), g2.trans g1, gs2,
    f2 ∘ f1, new1.map f2 ++ new2, tokStatusOnly_comp hf1 hf2, ?_, ?_, ?_, ?_, ?_⟩
  · rw [ht2, ht1]
    simp [List.map_map]
  · intro u hu
    rcases List.mem_append.mp hu with h | h
    · obtain ⟨v, hv, rfl⟩ := List.mem_map.mp h
      have := hid1 v hv
      have hidv := (hf2 v).1
      omega
    · exact hid2 u h
  · intro i hlo hhi
    by_cases hmid : i < s2.nextId
    · obtain ⟨u, hu, hui⟩ := hcov1 i hlo hmid
      refine ⟨f2 u, List.mem_append.mpr (Or.inl (List.mem_map.mpr ⟨u, hu, rfl⟩)), ?_⟩
      rw [(hf2 u).1, hui]
    · obtain ⟨u, hu, hui⟩ := hcov2 i (by omega) hhi
      exact ⟨u, List.mem_append.mpr (Or.inr hu), hui⟩
  · rw [countType_append, countType_append, countType_append,
      countType_map hf2, countType_map hf2, countType_map hf2]
    omega
  · have hfilt : (new1.map f2).filter (fun u => decide (u.type ≠ TokenType.blockEnd))
        = (new1.filter fun u => decide (u.type ≠ TokenType.blockEnd)).map f2 := by
      rw [List.filter_map]
      congr 1
      apply List.filter_congr
      intro u _
      simp only [Function.comp_apply, (hf2 u).2.1]
    rw [List.filter_append, List.length_append, hfilt, List.length_map,
      countType_append, countType_append, countType_map hf2, countType_map hf2]
    omega

/-- Scan-step relation for a state change that only moves the cursor or
rewrites token statuses. -/
theorem rel_of_skipFrame {s s' : Scanner} (h : SkipFrame s s')
    (hc : 0 ≤ s.m_column) (hg : GoodStack s.m_indents) : ScanStepRel 0 s s' := by
  obtain ⟨a, b, c, d, e, f, g, i, fm, hfm, ht⟩ := h
  refine ⟨a, b hc, i.ge, fun hl => g.trans hl, c, f ▸ hg, fm, [], hfm, by rw [ht]; simp,
    by simp, ?_, ?_, by simp [countType]⟩
  · intro j h1 h2
    omega
  · rw [f]
    simp [countType]

theorem rel_of_move {s s' : Scanner} (h : MoveOnly s s') (hc : 0 ≤ s.m_column)
    (hg : GoodStack s.m_indents) : ScanStepRel 0 s s' :=
  rel_of_skipFrame h.mskip hc hg

theorem rel_of_status {s s' : Scanner} (h : StatusOnly s s') (hc : 0 ≤ s.m_column)
    (hg : GoodStack s.m_indents) : ScanStepRel 0 s s' :=
  rel_of_skipFrame h.sskip hc hg

theorem rel_refl {s : Scanner} (hc : 0 ≤ s.m_column) (hg : GoodStack s.m_indents) :
    ScanStepRel 0 s s :=
  rel_of_skipFrame (skipFrame_refl s) hc hg

/-- A scan-step piece: the step relation together with exact preservation of
the limbo set and of the ended flag (every helper inside an ordinary
ScanToken body leaves both alone). -/
def PieceRel (c : Nat) (s s' : Scanner) : Prop :=
  ScanStepRel c s s' ∧ s'.m_limboTokens = s.m_limboTokens ∧
    s'.m_endedStream = s.m_endedStream

theorem PieceRel.ptrans {c1 c2 : Nat} {s1 s2 s3 : Scanner} (h1 : PieceRel c1 s1 s2)
    (h2 : PieceRel c2 s2 s3) : PieceRel (c1 + c2) s1 s3 :=
  ⟨h1.1.rtrans h2.1, h2.2.1.trans h1.2.1, h2.2.2.trans h1.2.2⟩

theorem PieceRel.pmono {c c' : Nat} {s s' : Scanner} (h : PieceRel c s s') (hc : c ≤ c') :
    PieceRel c' s s' :=
  ⟨h.1.rmono hc, h.2⟩

theorem piece_of_move {s s' : Scanner} (h : MoveOnly s s') (hc : 0 ≤ s.m_column)
    (hg : GoodStack s.m_indents) : PieceRel 0 s s' :=
  ⟨rel_of_move h hc hg, h.2.2.2.2.2.2.2.2.1, h.2.2.2.1⟩

theorem piece_of_status {s s' : Scanner} (h : StatusOnly s s') (hc : 0 ≤ s.m_column)
    (hg : GoodStack s.m_indents) : PieceRel 0 s s' :=
  ⟨rel_of_status h hc hg, h.2.2.2.2.2.2.2.1, h.2.2.2.1⟩

theorem piece_refl {s : Scanner} (hc : 0 ≤ s.m_column) (hg : GoodStack s.m_indents) :
    PieceRel 0 s s :=
  ⟨rel_refl hc hg, rfl, rfl⟩

/-- Scan-step piece for a record update that keeps input, column, indents,
tokens, limbo, allocation counter and the started flag. -/
theorem piece_of_eq_fields {s s' : Scanner}
    (h1 : s'.input = s.input) (h2 : s'.m_column = s.m_column)
    (h3 : s'.m_indents = s.m_indents) (h4 : s'.m_tokens = s.m_tokens)
    (h5 : s'.m_limboTokens = s.m_limboTokens) (h6 : s'.nextId = s.nextId)
    (h7 : s'.m_startedStream = s.m_startedStream)
    (h8 : s'.m_endedStream = s.m_endedStream)
    (hc : 0 ≤ s.m_column) (hg : GoodStack s.m_indents) : PieceRel 0 s s' := by
  refine ⟨⟨h1 ▸ List.suffix_refl _, h2 ▸ hc, h6.ge, fun hl => h5.trans hl, h7, h3 ▸ hg,
    id, [], tokStatusOnly_id, by rw [h4]; simp, by simp, ?_, ?_, by simp [countType]⟩, h5, h8⟩
  · intro j ha hb
    omega
  · rw [h3]
    simp [countType]

theorem piece_pushIndentTo (s : Scanner) (col : Int) (sq : Bool)
    (hc : 0 ≤ s.m_column) (hg : GoodStack s.m_indents) :
    PieceRel 2 s (s.PushIndentTo col sq).2 := by
  rcases pushIndentTo_cases s col sq with ⟨heq, _⟩ | ⟨hflow, hcol, heq, _⟩
  · rw [heq]
    exact (piece_refl hc hg).pmono (by omega)
  · rw [heq]
    refine ⟨⟨List.suffix_refl _, hc, by simp, fun hl => hl, rfl,
      goodStack_push hg hcol,
      id, [Token.mk (if sq then TokenType.blockSeqStart else TokenType.blockMapStart)
            [] true true s.nextId], tokStatusOnly_id, by simp, ?_, ?_, ?_, ?_⟩, rfl, rfl⟩
    · intro u hu
      simp only [List.mem_singleton] at hu
      rw [hu]
      exact Nat.lt_succ_self _
    · intro i h1 h2
      have h2b : i < s.nextId + 1 := h2
      exact ⟨Token.mk (if sq then TokenType.blockSeqStart else TokenType.blockMapStart)
        [] true true s.nextId, List.mem_singleton.mpr rfl, (show s.nextId = i by omega)⟩
    · rcases sq with _ | _ <;>
        first
          | (simp [countType, List.filter_cons]; omega)
          | simp [countType, List.filter_cons]
    · rcases sq with _ | _ <;>
        first
          | (simp [countType, List.filter_cons]; omega)
          | simp [countType, List.filter_cons]

theorem piece_popIndentTo (s : Scanner) (col : Int) (hcol : -1 ≤ col)
    (hc : 0 ≤ s.m_column) (hg : GoodStack s.m_indents) :
    PieceRel 0 s (s.PopIndentTo col) := by
  rcases popIndentTo_fields s col with ⟨heq, _⟩ | ⟨hflow, heq⟩
  · rw [heq]
    exact piece_refl hc hg
  · rw [heq]
    obtain ⟨k, hdrop, hkle, hnid, ends, hends, hlen, hprop, hcov⟩ :=
      popIndents_spec col s.m_indents s.m_tokens s.nextId
    have hgood := goodStack_popIndents col hcol s.m_indents s.m_tokens s.nextId hg
    have hcntE : countType TokenType.blockEnd ends = ends.length := by
      unfold countType
      rw [List.filter_eq_self.mpr]
      intro u hu
      simp [(hprop u hu).1]
    have hcntS : countType TokenType.blockSeqStart ends = 0 := by
      unfold countType
      rw [List.filter_eq_nil_iff.mpr, List.length_nil]
      intro u hu
      simp [(hprop u hu).1]
    have hcntM : countType TokenType.blockMapStart ends = 0 := by
      unfold countType
      rw [List.filter_eq_nil_iff.mpr, List.length_nil]
      intro u hu
      simp [(hprop u hu).1]
    have hnonEnd : (ends.filter fun u => decide (u.type ≠ TokenType.blockEnd)) = [] := by
      rw [List.filter_eq_nil_iff.mpr]
      intro u hu
      simp [(hprop u hu).1]
    refine ⟨⟨List.suffix_refl _, hc, ?_, fun hl => hl, rfl, hdrop ▸ hgood,
      id, ends, tokStatusOnly_id, ?_, ?_, ?_, ?_, ?_⟩, rfl, rfl⟩
    · simp only [hnid]
      omega
    · rw [hends]
      simp
    · intro u hu
      have := (hprop u hu).2.2.2.2
      simp only [hnid]
      omega
    · intro i h1 h2
      simp only [hnid] at h2
      exact hcov i h1 h2
    · rw [hcntS, hcntM, hcntE, hlen, hdrop, List.length_drop]
      omega
    · rw [hnonEnd, hcntS, hcntM]
      simp

/-- Scan-step piece appending one freshly allocated non-block token (and
possibly updating the pending-key slot). -/
theorem piece_append_fresh (s : Scanner) (t : Token) (pk : Option SimpleKey)
    (hid : t.id = s.nextId)
    (hty : t.type ≠ TokenType.blockSeqStart ∧ t.type ≠ TokenType.blockMapStart ∧
      t.type ≠ TokenType.blockEnd)
    (hc : 0 ≤ s.m_column) (hg : GoodStack s.m_indents) :
    PieceRel 1 s
      { s with m_tokens := s.m_tokens ++ [t], nextId := s.nextId + 1, pendingKey := pk } := by
  refine ⟨⟨List.suffix_refl _, hc, ?_, fun hl => hl, rfl, hg,
    id, [t], tokStatusOnly_id, by simp, ?_, ?_, ?_, ?_⟩, rfl, rfl⟩
  · show s.nextId ≤ s.nextId + 1
    omega
  · intro u hu
    simp only [List.mem_singleton] at hu
    rw [hu, hid]
    exact Nat.lt_succ_self _
  · intro i h1 h2
    have h2b : i < s.nextId + 1 := h2
    refine ⟨t, List.mem_singleton.mpr rfl, ?_⟩
    rw [hid]
    omega
  · have h1 : countType TokenType.blockSeqStart [t] = 0 := by
      simp [countType, hty.1]
    have h2 : countType TokenType.blockMapStart [t] = 0 := by
      simp [countType, hty.2.1]
    have h3 : countType TokenType.blockEnd [t] = 0 := by
      simp [countType, hty.2.2]
    rw [h1, h2, h3]
  · have h1 : countType TokenType.blockSeqStart [t] = 0 := by
      simp [countType, hty.1]
    have h2 : countType TokenType.blockMapStart [t] = 0 := by
      simp [countType, hty.2.1]
    rw [h1, h2]
    have h4 : (List.filter (fun u => decide (u.type ≠ TokenType.blockEnd)) [t]).length ≤ 1 := by
      simp [List.filter_cons, hty.2.2]
    omega

theorem ScanStepRel.rcol {c : Nat} {s s' : Scanner} (h : ScanStepRel c s s') :
    0 ≤ s'.m_column := h.2.1

theorem ScanStepRel.rgood {c : Nat} {s s' : Scanner} (h : ScanStepRel c s s') :
    GoodStack s'.m_indents := h.2.2.2.2.2.1

theorem moveOnly_readPlainScalarF (n : Nat) :
    ∀ (s : Scanner) (acc : List Char), MoveOnly s (Scanner.readPlainScalarF n s acc).2 := by
  induction n with
  | zero => intro s acc; exact moveOnly_refl s
  | succ n ih =>
      intro s acc
      unfold Scanner.readPlainScalarF
      split
      · exact moveOnly_refl s
      · split
        · exact moveOnly_refl s
        · exact (moveOnly_Eat s 1).mtrans (ih (s.Eat 1) _)

theorem moveOnly_readQuotedF (n : Nat) :
    ∀ (q : Char) (s : Scanner) (acc : List Char),
      MoveOnly s (Scanner.readQuotedF n q s acc).2 := by
  induction n with
  | zero => intro q s acc; exact moveOnly_refl s
  | succ n ih =>
      intro q s acc
      unfold Scanner.readQuotedF
      split
      · exact moveOnly_refl s
      · split
        · exact moveOnly_Eat s 1
        · exact (moveOnly_Eat s 1).mtrans (ih q (s.Eat 1) _)

theorem statusOnly_setInvalid (s : Scanner) (i : Nat) :
    StatusOnly s { s with m_tokens := setTokenInvalidById i s.m_tokens } := by
  refine ⟨rfl, rfl, rfl, rfl, rfl, rfl, rfl, rfl, rfl,
    ⟨fun t => if t.id = i then { t with isValid := false } else t, ?_, rfl⟩⟩
  intro t
  by_cases h : t.id = i <;> simp [h]

theorem piece_InsertSimpleKey (s : Scanner) (hc : 0 ≤ s.m_column)
    (hg : GoodStack s.m_indents) : PieceRel 3 s s.InsertSimpleKey := by
  have h0 : PieceRel 0 s s.retractPending :=
    piece_of_status (statusOnly_retractPending s) hc hg
  have hc0 : 0 ≤ (s.retractPending).m_column := h0.1.rcol
  have hg0 : GoodStack (s.retractPending).m_indents := h0.1.rgood
  have h1 : PieceRel 2 (s.retractPending)
      ((s.retractPending).PushIndentTo (s.retractPending).m_column false).2 :=
    piece_pushIndentTo _ _ false hc0 hg0
  have hc1 : 0 ≤ ((s.retractPending).PushIndentTo (s.retractPending).m_column false).2.m_column :=
    h1.1.rcol
  have hg1 : GoodStack
      ((s.retractPending).PushIndentTo (s.retractPending).m_column false).2.m_indents :=
    h1.1.rgood
  unfold Scanner.InsertSimpleKey
  by_cases hp : ((s.retractPending).PushIndentTo (s.retractPending).m_column false).1.isSome
  · simp only [hp, if_true]
    set s1 := ((s.retractPending).PushIndentTo (s.retractPending).m_column false).2 with hs1
    have h2 : PieceRel 0 s1
        { s1 with m_tokens := setTokenInvalidById (s.retractPending).nextId s1.m_tokens } :=
      piece_of_status (statusOnly_setInvalid s1 (s.retractPending).nextId) hc1 hg1
    set s2 := { s1 with m_tokens := setTokenInvalidById (s.retractPending).nextId s1.m_tokens }
      with hs2
    have hc2 : 0 ≤ s2.m_column := h2.1.rcol
    have hg2 : GoodStack s2.m_indents := h2.1.rgood
    have h3 : PieceRel 1 s2
        { s2 with
          m_tokens := s2.m_tokens ++ [{ (s2.newToken TokenType.key []).1 with isValid := false }],
          nextId := s2.nextId + 1,
          pendingKey := some ⟨(s2.newToken TokenType.key []).1.id,
            some (s.retractPending).nextId, s2.m_line, s2.m_flowLevel⟩ } :=
      piece_append_fresh s2 _ _ rfl (by refine ⟨?_, ?_, ?_⟩ <;> simp [Scanner.newToken]) hc2 hg2
    exact ((h0.ptrans h1).ptrans h2).ptrans h3
  · simp only [hp, if_false]
    set s1 := ((s.retractPending).PushIndentTo (s.retractPending).m_column false).2 with hs1
    have h3 : PieceRel 1 s1
        { s1 with
          m_tokens := s1.m_tokens ++ [{ (s1.newToken TokenType.key []).1 with isValid := false }],
          nextId := s1.nextId + 1,
          pendingKey := some ⟨(s1.newToken TokenType.key []).1.id, none,
            s1.m_line, s1.m_flowLevel⟩ } :=
      piece_append_fresh s1 _ _ rfl (by refine ⟨?_, ?_, ?_⟩ <;> simp [Scanner.newToken]) hc1 hg1
    exact (h0.ptrans h1).ptrans h3

theorem PieceRel.pcol {c : Nat} {s s' : Scanner} (h : PieceRel c s s') :
    0 ≤ s'.m_column := h.1.rcol

theorem PieceRel.pgood {c : Nat} {s s' : Scanner} (h : PieceRel c s s') :
    GoodStack s'.m_indents := h.1.rgood

theorem piece_set_ska (s : Scanner) (b : Bool) (hc : 0 ≤ s.m_column)
    (hg : GoodStack s.m_indents) : PieceRel 0 s { s with m_simpleKeyAllowed := b } :=
  piece_of_eq_fields rfl rfl rfl rfl rfl rfl rfl rfl hc hg

theorem piece_IncreaseFlowLevel (s : Scanner) (hc : 0 ≤ s.m_column)
    (hg : GoodStack s.m_indents) : PieceRel 0 s s.IncreaseFlowLevel :=
  piece_of_eq_fields rfl rfl rfl rfl rfl rfl rfl rfl hc hg

theorem piece_DecreaseFlowLevel (s : Scanner) (hc : 0 ≤ s.m_column)
    (hg : GoodStack s.m_indents) : PieceRel 0 s s.DecreaseFlowLevel := by
  unfold Scanner.DecreaseFlowLevel
  by_cases h : 0 < s.m_flowLevel
  · rw [if_pos h]
    exact piece_of_eq_fields rfl rfl rfl rfl rfl rfl rfl rfl hc hg
  · rw [if_neg h]
    exact piece_refl hc hg

/-- Contract of an ordinary ScanToken body: it is a scan-step piece with
bound `c`, and the returned token keeps the identity and kind of the token
that was passed in. -/
def BodyOK (c : Nat) (B : Scanner → Token → Token × Scanner) : Prop :=
  ∀ (s : Scanner) (t : Token), 0 ≤ s.m_column → GoodStack s.m_indents →
    PieceRel c s (B s t).2 ∧ (B s t).1.id = t.id ∧ (B s t).1.type = t.type

theorem bodyOK_doc : BodyOK 0 Scanner.ScanDocBody := by
  intro s t hc hg
  refine ⟨?_, rfl, rfl⟩
  have h0 := piece_of_status (statusOnly_retractPending s) hc hg
  have h1 := piece_popIndentTo s.retractPending (-1) (le_refl _) h0.pcol h0.pgood
  have h01 := h0.ptrans h1
  have h2 := piece_of_move (moveOnly_Eat ((s.retractPending).PopIndentTo (-1)) 3)
    h01.pcol h01.pgood
  have h012 := h01.ptrans h2
  have h3 := piece_set_ska (((s.retractPending).PopIndentTo (-1)).Eat 3) false
    h012.pcol h012.pgood
  exact h012.ptrans h3

theorem bodyOK_flowStart : BodyOK 0 Scanner.ScanFlowStartBody := by
  intro s t hc hg
  refine ⟨?_, rfl, rfl⟩
  have h0 := piece_IncreaseFlowLevel s hc hg
  have h1 := piece_of_move (moveOnly_Eat s.IncreaseFlowLevel 1) h0.pcol h0.pgood
  have h01 := h0.ptrans h1
  have h2 := piece_set_ska (s.IncreaseFlowLevel.Eat 1) true h01.pcol h01.pgood
  exact h01.ptrans h2

theorem bodyOK_flowEnd : BodyOK 0 Scanner.ScanFlowEndBody := by
  intro s t hc hg
  refine ⟨?_, rfl, rfl⟩
  have h0 := piece_DecreaseFlowLevel s hc hg
  have h1 := piece_of_move (moveOnly_Eat s.DecreaseFlowLevel 1) h0.pcol h0.pgood
  have h01 := h0.ptrans h1
  have h2 := piece_set_ska (s.DecreaseFlowLevel.Eat 1) false h01.pcol h01.pgood
  exact h01.ptrans h2

theorem bodyOK_flowEntry : BodyOK 0 Scanner.ScanFlowEntryBody := by
  intro s t hc hg
  refine ⟨?_, rfl, rfl⟩
  have h0 := piece_of_move (moveOnly_Eat s 1) hc hg
  have h1 := piece_set_ska (s.Eat 1) true h0.pcol h0.pgood
  exact h0.ptrans h1

theorem bodyOK_blockEntry : BodyOK 2 Scanner.ScanBlockEntryBody := by
  intro s t hc hg
  refine ⟨?_, rfl, rfl⟩
  have h0 := piece_pushIndentTo s s.m_column true hc hg
  have h1 := piece_of_move (moveOnly_Eat (s.PushIndentTo s.m_column true).2 1)
    h0.pcol h0.pgood
  have h01 := h0.ptrans h1
  have h2 := piece_set_ska ((s.PushIndentTo s.m_column true).2.Eat 1) true
    h01.pcol h01.pgood
  exact h01.ptrans h2

theorem bodyOK_key : BodyOK 2 Scanner.ScanKeyBody := by
  intro s t hc hg
  refine ⟨?_, rfl, rfl⟩
  unfold Scanner.ScanKeyBody
  by_cases hfl : s.m_flowLevel = 0
  · rw [if_pos hfl]
    have h0 := piece_pushIndentTo s s.m_column false hc hg
    have h1 := piece_of_move (moveOnly_Eat (s.PushIndentTo s.m_column false).2 1)
      h0.pcol h0.pgood
    have h01 := h0.ptrans h1
    have h2 := piece_set_ska ((s.PushIndentTo s.m_column false).2.Eat 1)
      (decide (s.m_flowLevel = 0)) h01.pcol h01.pgood
    exact h01.ptrans h2
  · rw [if_neg hfl]
    have h0 := piece_of_move (moveOnly_Eat s 1) hc hg
    have h1 := piece_set_ska (s.Eat 1) (decide (s.m_flowLevel = 0)) h0.pcol h0.pgood
    exact (h0.ptrans h1).pmono (by omega)

theorem bodyOK_value : BodyOK 2 Scanner.ScanValueBody := by
  intro s t hc hg
  refine ⟨?_, ?_, ?_⟩
  case refine_2 =>
    unfold Scanner.ScanValueBody
    split
    · split <;> rfl
    · rfl
  case refine_3 =>
    unfold Scanner.ScanValueBody
    split
    · split <;> rfl
    · rfl
  case refine_1 =>
    unfold Scanner.ScanValueBody
    split
    · split
      · -- the colon confirms a reachable pending simple key
        have h0 := piece_of_status (statusOnly_confirmPending s) hc hg
        have h1 := piece_of_move (moveOnly_Eat s.confirmPending 1) h0.pcol h0.pgood
        have h01 := h0.ptrans h1
        have h2 := piece_set_ska (s.confirmPending.Eat 1) false h01.pcol h01.pgood
        exact (h01.ptrans h2).pmono (by omega)
      · -- unreachable pending key: retract it, then the block/flow value rules
        have h0 := piece_of_status (statusOnly_retractPending s) hc hg
        dsimp only []
        split
        · have h1 := piece_pushIndentTo s.retractPending (s.retractPending).m_column false
            h0.pcol h0.pgood
          have h01 := h0.ptrans h1
          have h2 := piece_of_move
            (moveOnly_Eat ((s.retractPending).PushIndentTo (s.retractPending).m_column false).2 1)
            h01.pcol h01.pgood
          have h012 := h01.ptrans h2
          have h3 := piece_set_ska
            (((s.retractPending).PushIndentTo (s.retractPending).m_column false).2.Eat 1)
            (decide ((s.retractPending).m_flowLevel = 0)) h012.pcol h012.pgood
          exact h012.ptrans h3
        · have h1 := piece_of_move (moveOnly_Eat s.retractPending 1) h0.pcol h0.pgood
          have h01 := h0.ptrans h1
          have h2 := piece_set_ska ((s.retractPending).Eat 1)
            (decide ((s.retractPending).m_flowLevel = 0)) h01.pcol h01.pgood
          exact (h01.ptrans h2).pmono (by omega)
    · -- no pending simple key
      dsimp only []
      split
      · have h1 := piece_pushIndentTo s s.m_column false hc hg
        have h2 := piece_of_move (moveOnly_Eat (s.PushIndentTo s.m_column false).2 1)
          h1.pcol h1.pgood
        have h12 := h1.ptrans h2
        have h3 := piece_set_ska ((s.PushIndentTo s.m_column false).2.Eat 1)
          (decide (s.m_flowLevel = 0)) h12.pcol h12.pgood
        exact h12.ptrans h3
      · have h1 := piece_of_move (moveOnly_Eat s 1) hc hg
        have h2 := piece_set_ska (s.Eat 1) (decide (s.m_flowLevel = 0))
          h1.pcol h1.pgood
        exact (h1.ptrans h2).pmono (by omega)

theorem bodyOK_plain : BodyOK 3 Scanner.ScanPlainScalarBody := by
  intro s t hc hg
  unfold Scanner.ScanPlainScalarBody
  have hbase : ∀ (s2 : Scanner), 0 ≤ s2.m_column → GoodStack s2.m_indents →
      PieceRel 0 s2 (match s2.input with
        | [] => (t, s2)
        | c :: _ =>
            let s3 := s2.Eat 1
            let r := Scanner.readPlainScalarF s3.input.length s3 [c]
            ({ t with value := r.1 }, r.2)).2 := by
    intro s2 hc2 hg2
    rcases hin : s2.input with _ | ⟨c, rest⟩
    · exact piece_refl hc2 hg2
    · have h1 := piece_of_move (moveOnly_Eat s2 1) hc2 hg2
      have h2 := piece_of_move
        (moveOnly_readPlainScalarF (s2.Eat 1).input.length (s2.Eat 1) [c])
        h1.pcol h1.pgood
      exact h1.ptrans h2
  have hfst : ∀ (s2 : Scanner), (match s2.input with
        | [] => (t, s2)
        | c :: _ =>
            let s3 := s2.Eat 1
            let r := Scanner.readPlainScalarF s3.input.length s3 [c]
            ({ t with value := r.1 }, r.2)).1.id = t.id ∧
      (match s2.input with
        | [] => (t, s2)
        | c :: _ =>
            let s3 := s2.Eat 1
            let r := Scanner.readPlainScalarF s3.input.length s3 [c]
            ({ t with value := r.1 }, r.2)).1.type = t.type := by
    intro s2
    rcases hin : s2.input with _ | ⟨c, rest⟩ <;> exact ⟨rfl, rfl⟩
  by_cases hska : s.m_simpleKeyAllowed = true
  · rw [if_pos hska]
    have h0 := piece_InsertSimpleKey s hc hg
    have h1 := piece_set_ska s.InsertSimpleKey false h0.pcol h0.pgood
    have h01 := h0.ptrans h1
    have h2 := hbase { s.InsertSimpleKey with m_simpleKeyAllowed := false }
      h01.pcol h01.pgood
    exact ⟨h01.ptrans h2, (hfst _).1, (hfst _).2⟩
  · rw [if_neg hska]
    have h1 := piece_set_ska s false hc hg
    have h2 := hbase { s with m_simpleKeyAllowed := false } h1.pcol h1.pgood
    exact ⟨(h1.ptrans h2).pmono (by omega), (hfst _).1, (hfst _).2⟩

theorem bodyOK_quoted : BodyOK 3 Scanner.ScanQuotedScalarBody := by
  intro s t hc hg
  unfold Scanner.ScanQuotedScalarBody
  have hbase : ∀ (s2 : Scanner), 0 ≤ s2.m_column → GoodStack s2.m_indents →
      PieceRel 0 s2 (match s2.input with
        | [] => (t, s2)
        | q :: _ =>
            let s3 := s2.Eat 1
            let r := Scanner.readQuotedF s3.input.length q s3 []
            ({ t with value := r.1 }, r.2)).2 := by
    intro s2 hc2 hg2
    rcases hin : s2.input with _ | ⟨q, rest⟩
    · exact piece_refl hc2 hg2
    · have h1 := piece_of_move (moveOnly_Eat s2 1) hc2 hg2
      have h2 := piece_of_move
        (moveOnly_readQuotedF (s2.Eat 1).input.length q (s2.Eat 1) [])
        h1.pcol h1.pgood
      exact h1.ptrans h2
  have hfst : ∀ (s2 : Scanner), (match s2.input with
        | [] => (t, s2)
        | q :: _ =>
            let s3 := s2.Eat 1
            let r := Scanner.readQuotedF s3.input.length q s3 []
            ({ t with value := r.1 }, r.2)).1.id = t.id ∧
      (match s2.input with
        | [] => (t, s2)
        | q :: _ =>
            let s3 := s2.Eat 1
            let r := Scanner.readQuotedF s3.input.length q s3 []
            ({ t with value := r.1 }, r.2)).1.type = t.type := by
    intro s2
    rcases hin : s2.input with _ | ⟨q, rest⟩ <;> exact ⟨rfl, rfl⟩
  by_cases hska : s.m_simpleKeyAllowed = true
  · rw [if_pos hska]
    have h0 := piece_InsertSimpleKey s hc hg
    have h1 := piece_set_ska s.InsertSimpleKey false h0.pcol h0.pgood
    have h01 := h0.ptrans h1
    have h2 := hbase { s.InsertSimpleKey with m_simpleKeyAllowed := false }
      h01.pcol h01.pgood
    exact ⟨h01.ptrans h2, (hfst _).1, (hfst _).2⟩
  · rw [if_neg hska]
    have h1 := piece_set_ska s false hc hg
    have h2 := hbase { s with m_simpleKeyAllowed := false } h1.pcol h1.pgood
    exact ⟨(h1.ptrans h2).pmono (by omega), (hfst _).1, (hfst _).2⟩

theorem piece_of_skipFrame {s s' : Scanner} (h : SkipFrame s s') (hc : 0 ≤ s.m_column)
    (hg : GoodStack s.m_indents) : PieceRel 0 s s' :=
  ⟨rel_of_skipFrame h hc hg, h.2.2.2.2.2.2.1, h.2.2.2.1⟩

/-- Every entry of a well-formed indentation stack is at least the sentinel. -/
theorem goodStack_ge {l : List Int} (h : GoodStack l) : ∀ x ∈ l, -1 ≤ x := by
  induction l with
  | nil => intro x hx; cases hx
  | cons a rest ih =>
      intro x hx
      rcases rest with _ | ⟨b, rest2⟩
      · rcases List.mem_cons.mp hx with rfl | hm
        · obtain ⟨_, hlast, _⟩ := h
          simp only [List.getLast?_singleton, Option.some.injEq] at hlast
          omega
        · exact absurd hm (List.not_mem_nil x)
      · have htail : GoodStack (b :: rest2) := by
          refine ⟨by simp, ?_, (List.chain'_cons'.mp h.2.2).2⟩
          have := h.2.1
          rw [List.getLast?_cons_cons] at this
          exact this
        rcases List.mem_cons.mp hx with rfl | hm
        · have hb : -1 ≤ b := ih htail b (List.mem_cons_self _ _)
          have hab : b < x := by
            have := (List.chain'_cons'.mp h.2.2).1
            simpa using this b rfl
          omega
        · exact ih htail x hm

/-- Popping to the sentinel column leaves exactly the sentinel on a
well-formed stack. -/
theorem popIndents_sentinel (toks : List Token) (nid : Nat) :
    ∀ (l : List Int), GoodStack l → ∀ (tks : List Token) (n : Nat),
      (popIndents (-1) l tks n).1 = [-1] := by
  intro l
  induction l with
  | nil => intro h; exact absurd rfl h.1
  | cons top rest ih =>
      intro h tks n
      by_cases hlt : (-1 : Int) < top
      · rcases rest with _ | ⟨b, rest2⟩
        · obtain ⟨_, hlast, _⟩ := h
          simp only [List.getLast?_singleton, Option.some.injEq] at hlast
          omega
        · have htail : GoodStack (b :: rest2) := by
            refine ⟨by simp, ?_, (List.chain'_cons'.mp h.2.2).2⟩
            have := h.2.1
            rw [List.getLast?_cons_cons] at this
            exact this
          rw [show popIndents (-1) (top :: b :: rest2) tks n =
              popIndents (-1) (b :: rest2)
                (tks ++ [Token.mk TokenType.blockEnd [] true true n]) (n + 1) by
            simp [popIndents, hlt]]
          exact ih htail _ _
      · have hge := goodStack_ge h top (List.mem_cons_self _ _)
        have htop : top = -1 := by omega
        rcases rest with _ | ⟨b, rest2⟩
        · rw [show popIndents (-1) [top] tks n = ([top], tks, n) by simp [popIndents, hlt]]
          rw [htop]
        · have htail : GoodStack (b :: rest2) := by
            refine ⟨by simp, ?_, (List.chain'_cons'.mp h.2.2).2⟩
            have := h.2.1
            rw [List.getLast?_cons_cons] at this
            exact this
          have hb : -1 ≤ b := goodStack_ge htail b (List.mem_cons_self _ _)
          have hab : b < top := by
            have := (List.chain'_cons'.mp h.2.2).1
            simpa using this b rfl
          omega

theorem limbo_PopIndentTo (s : Scanner) (col : Int) :
    (s.PopIndentTo col).m_limboTokens = s.m_limboTokens := by
  rcases popIndentTo_fields s col with ⟨heq, _⟩ | ⟨_, heq⟩ <;> rw [heq]

theorem ended_PopIndentTo (s : Scanner) (col : Int) :
    (s.PopIndentTo col).m_endedStream = s.m_endedStream := by
  rcases popIndentTo_fields s col with ⟨heq, _⟩ | ⟨_, heq⟩ <;> rw [heq]

theorem indents_PopIndentTo_sentinel (s : Scanner) (hflow : ¬0 < s.m_flowLevel)
    (hg : GoodStack s.m_indents) : (s.PopIndentTo (-1)).m_indents = [-1] := by
  rcases popIndentTo_fields s (-1) with ⟨_, hf⟩ | ⟨_, heq⟩
  · exact absurd hf hflow
  · rw [heq]
    exact popIndents_sentinel s.m_tokens s.nextId s.m_indents hg s.m_tokens s.nextId

/-- Scan-step relation for the flag update closing the stream. -/
theorem rel_set_end_flags (s : Scanner) (b1 b2 : Bool) (hc : 0 ≤ s.m_column)
    (hg : GoodStack s.m_indents) :
    ScanStepRel 0 s { s with m_endedStream := b1, m_simpleKeyAllowed := b2 } := by
  refine ⟨List.suffix_refl _, hc, le_refl _, fun hl => hl, rfl, hg,
    id, [], tokStatusOnly_id, by simp, by simp, ?_, ?_, by simp [countType]⟩
  · intro j h1 h2
    have h2b : j < s.nextId := h2
    omega
  · simp [countType]

theorem rel_ScanAndEnqueue {c : Nat} (s : Scanner) (ty : TokenType)
    (B : Scanner → Token → Token × Scanner) (hB : BodyOK c B)
    (hty : ty ≠ TokenType.blockSeqStart ∧ ty ≠ TokenType.blockMapStart ∧
      ty ≠ TokenType.blockEnd)
    (hc : 0 ≤ s.m_column) (hg : GoodStack s.m_indents) :
    ScanStepRel (c + 1) s (s.ScanAndEnqueue ty B) ∧
    (s.ScanAndEnqueue ty B).m_endedStream = s.m_endedStream := by
  unfold Scanner.ScanAndEnqueue Scanner.newToken
  dsimp only []
  set t0 : Token := Token.mk ty [] true true s.nextId with ht0
  set sA : Scanner := { s with
    nextId := s.nextId + 1, m_limboTokens := t0 :: s.m_limboTokens } with hsA
  obtain ⟨⟨rel, hlim, hendB⟩, hid, htyB⟩ :=
    hB sA t0 (show 0 ≤ sA.m_column from hc) (show GoodStack sA.m_indents from hg)
  obtain ⟨hsuf, hcol, hnid, _, hstarted, hgood, f, newB, hf, htoks, hids, hcov, hcnt, hbnd⟩ := rel
  set s3 : Scanner := (B sA t0).2 with hs3
  have hnidA : sA.nextId = s.nextId + 1 := rfl
  constructor
  · refine ⟨hsuf, hcol, ?_, ?_, hstarted, hgood, f, newB ++ [(B sA t0).1], hf, ?_, ?_, ?_,
      ?_, ?_⟩
    · show s.nextId ≤ s3.nextId
      omega
    · intro hl
      show (s3.m_limboTokens.filter fun x => decide (x.id ≠ t0.id)) = []
      rw [hlim]
      show ((t0 :: s.m_limboTokens).filter fun x => decide (x.id ≠ t0.id)) = []
      rw [hl]
      simp
    · show s3.m_tokens ++ [(B sA t0).1] = s.m_tokens.map f ++ (newB ++ [(B sA t0).1])
      rw [htoks, List.append_assoc]
    · intro u hu
      rcases List.mem_append.mp hu with h | h
      · exact hids u h
      · rw [List.mem_singleton.mp h, hid]
        show t0.id < s3.nextId
        have : t0.id = s.nextId := rfl
        omega
    · intro i h1 h2
      by_cases hieq : i = s.nextId
      · refine ⟨(B sA t0).1, List.mem_append.mpr (Or.inr (List.mem_singleton.mpr rfl)), ?_⟩
        rw [hid]
        show s.nextId = i
        omega
      · obtain ⟨u, hu, hui⟩ := hcov i (by omega) h2
        exact ⟨u, List.mem_append.mpr (Or.inl hu), hui⟩
    · have hS : countType TokenType.blockSeqStart [(B sA t0).1] = 0 := by
        simp [countType, htyB, ht0, hty.1]
      have hM : countType TokenType.blockMapStart [(B sA t0).1] = 0 := by
        simp [countType, htyB, ht0, hty.2.1]
      have hE : countType TokenType.blockEnd [(B sA t0).1] = 0 := by
        simp [countType, htyB, ht0, hty.2.2]
      have hcnt2 : countType TokenType.blockSeqStart newB + countType TokenType.blockMapStart
          newB + s.m_indents.length = countType TokenType.blockEnd newB
            + s3.m_indents.length := hcnt
      show countType TokenType.blockSeqStart (newB ++ [(B sA t0).1])
          + countType TokenType.blockMapStart (newB ++ [(B sA t0).1]) + s.m_indents.length
        = countType TokenType.blockEnd (newB ++ [(B sA t0).1]) + s3.m_indents.length
      rw [countType_append, countType_append, countType_append, hS, hM, hE]
      omega
    · have hS : countType TokenType.blockSeqStart [(B sA t0).1] = 0 := by
        simp [countType, htyB, ht0, hty.1]
      have hM : countType TokenType.blockMapStart [(B sA t0).1] = 0 := by
        simp [countType, htyB, ht0, hty.2.1]
      have hNE : ([(B sA t0).1].filter fun u => decide (u.type ≠ TokenType.blockEnd))
          = [(B sA t0).1] := by
        simp [htyB, ht0, hty.2.2]
      rw [List.filter_append, List.length_append, hNE, countType_append, countType_append,
        hS, hM]
      simp only [List.length_singleton]
      omega
  · show s3.m_endedStream = s.m_endedStream
    exact hendB

theorem rel_ScanAndEnqueue_streamEnd (s : Scanner) (hc : 0 ≤ s.m_column)
    (hg : GoodStack s.m_indents) :
    ScanStepRel 1 s (s.ScanAndEnqueue TokenType.streamEnd Scanner.ScanStreamEndBody) ∧
    (s.ScanAndEnqueue TokenType.streamEnd Scanner.ScanStreamEndBody).m_endedStream = true ∧
    (s.ScanAndEnqueue TokenType.streamEnd Scanner.ScanStreamEndBody).m_flowLevel
      = s.m_flowLevel ∧
    (¬0 < s.m_flowLevel →
      (s.ScanAndEnqueue TokenType.streamEnd Scanner.ScanStreamEndBody).m_indents = [-1]) := by
  unfold Scanner.ScanAndEnqueue Scanner.newToken Scanner.ScanStreamEndBody
  dsimp only []
  set t0 : Token := Token.mk TokenType.streamEnd [] true true s.nextId with ht0
  set sA : Scanner := { s with
    nextId := s.nextId + 1, m_limboTokens := t0 :: s.m_limboTokens } with hsA
  have h0 : PieceRel 0 sA sA.retractPending :=
    piece_of_status (statusOnly_retractPending sA)
      (show 0 ≤ sA.m_column from hc) (show GoodStack sA.m_indents from hg)
  have h1 : PieceRel 0 sA.retractPending ((sA.retractPending).PopIndentTo (-1)) :=
    piece_popIndentTo sA.retractPending (-1) (le_refl _) h0.pcol h0.pgood
  have h01 := h0.ptrans h1
  set sP : Scanner := (sA.retractPending).PopIndentTo (-1) with hsP
  have h2 : ScanStepRel 0 sP
      { sP with m_endedStream := true, m_simpleKeyAllowed := false } :=
    rel_set_end_flags sP true false h01.pcol h01.pgood
  have relAP : ScanStepRel 0 sA { sP with m_endedStream := true, m_simpleKeyAllowed := false } :=
    h01.1.rtrans h2
  -- the pending key slot is retracted before popping, so the flow level and
  -- stack reaching PopIndentTo are those of the original state
  have hflA : (sA.retractPending).m_flowLevel = s.m_flowLevel :=
    (statusOnly_retractPending sA).2.2.2.2.2.1
  have hflP : sP.m_flowLevel = s.m_flowLevel := by
    rcases popIndentTo_fields (sA.retractPending) (-1) with ⟨heq, _⟩ | ⟨_, heq⟩ <;>
      rw [show sP = (sA.retractPending).PopIndentTo (-1) from rfl, heq] <;> exact hflA
  have hsent : ¬0 < s.m_flowLevel → sP.m_indents = [-1] := by
    intro hflow
    have hflowA : ¬0 < (sA.retractPending).m_flowLevel := by
      rw [hflA]
      exact hflow
    have hgA : GoodStack (sA.retractPending).m_indents := h0.pgood
    exact indents_PopIndentTo_sentinel (sA.retractPending) hflowA hgA
  obtain ⟨hsuf, hcol, hnid, _, hstarted, hgood, f, newB, hf, htoks, hids, hcov, hcnt, hbnd⟩ :=
    relAP
  have hlimP : sP.m_limboTokens = sA.m_limboTokens := h01.2.1
  refine ⟨⟨hsuf, hcol, ?_, ?_, hstarted, hgood, f,
    newB ++ [t0], hf, ?_, ?_, ?_, ?_, ?_⟩, rfl, ?_, ?_⟩
  · show s.nextId ≤ sP.nextId
    have : sA.nextId ≤ sP.nextId := h01.1.2.2.1
    have hA : sA.nextId = s.nextId + 1 := rfl
    omega
  · intro hl
    show (sP.m_limboTokens.filter fun x => decide (x.id ≠ t0.id)) = []
    rw [hlimP]
    show ((t0 :: s.m_limboTokens).filter fun x => decide (x.id ≠ t0.id)) = []
    rw [hl]
    simp
  · show sP.m_tokens ++ [t0] = s.m_tokens.map f ++ (newB ++ [t0])
    have htokP : sP.m_tokens = sA.m_tokens.map f ++ newB := htoks
    rw [htokP, List.append_assoc]
  · intro u hu
    rcases List.mem_append.mp hu with h | h
    · exact hids u h
    · rw [List.mem_singleton.mp h]
      show t0.id < sP.nextId
      have : sA.nextId ≤ sP.nextId := h01.1.2.2.1
      have hA : sA.nextId = s.nextId + 1 := rfl
      have ht0id : t0.id = s.nextId := rfl
      omega
  · intro i h1 h2
    by_cases hieq : i = s.nextId
    · refine ⟨t0, List.mem_append.mpr (Or.inr (List.mem_singleton.mpr rfl)), ?_⟩
      show s.nextId = i
      omega
    · have h2b : i < sP.nextId := h2
      obtain ⟨u, hu, hui⟩ := hcov i (by
        have hA : sA.nextId = s.nextId + 1 := rfl
        omega) h2b
      exact ⟨u, List.mem_append.mpr (Or.inl hu), hui⟩
  · have hS : countType TokenType.blockSeqStart [t0] = 0 := by simp [countType, ht0]
    have hM : countType TokenType.blockMapStart [t0] = 0 := by simp [countType, ht0]
    have hE : countType TokenType.blockEnd [t0] = 0 := by simp [countType, ht0]
    have hcnt2 : countType TokenType.blockSeqStart newB + countType TokenType.blockMapStart
        newB + s.m_indents.length = countType TokenType.blockEnd newB
          + sP.m_indents.length := hcnt
    show countType TokenType.blockSeqStart (newB ++ [t0])
        + countType TokenType.blockMapStart (newB ++ [t0]) + s.m_indents.length
      = countType TokenType.blockEnd (newB ++ [t0]) + sP.m_indents.length
    rw [countType_append, countType_append, countType_append, hS, hM, hE]
    omega
  · have hS : countType TokenType.blockSeqStart [t0] = 0 := by simp [countType, ht0]
    have hM : countType TokenType.blockMapStart [t0] = 0 := by simp [countType, ht0]
    have hNE : ([t0].filter fun u => decide (u.type ≠ TokenType.blockEnd)) = [t0] := by
      simp [ht0]
    rw [List.filter_append, List.length_append, hNE, countType_append, countType_append,
      hS, hM]
    simp only [List.length_singleton]
    omega
  · show sP.m_flowLevel = s.m_flowLevel
    exact hflP
  · intro hflow
    show sP.m_indents = [-1]
    exact hsent hflow

/-- Closed form of the StreamStart scan-and-enqueue step. -/
theorem scanStreamStart_eq (s : Scanner) :
    s.ScanAndEnqueue TokenType.streamStart Scanner.ScanStreamStartBody =
      { s with m_startedStream := true, m_simpleKeyAllowed := true,
               m_indents := -1 :: s.m_indents,
               m_tokens := s.m_tokens ++ [Token.mk TokenType.streamStart [] true true s.nextId],
               m_limboTokens := s.m_limboTokens.filter fun x => decide (x.id ≠ s.nextId),
               nextId := s.nextId + 1 } := by
  unfold Scanner.ScanAndEnqueue Scanner.ScanStreamStartBody Scanner.newToken
  dsimp only []
  congr 1
  rw [List.filter_cons]
  simp

/-- One started, non-ended scan step through an ordinary classification
branch. -/
theorem masterOrdinary {s s3 s' : Scanner} {c : Nat} {ty : TokenType}
    {B : Scanner → Token → Token × Scanner} (hB : BodyOK c B)
    (hty : ty ≠ TokenType.blockSeqStart ∧ ty ≠ TokenType.blockMapStart ∧
      ty ≠ TokenType.blockEnd)
    (hcle : c + 1 ≤ 4) (p03 : PieceRel 0 s s3)
    (heq : s3.ScanAndEnqueue ty B = s') :
    ScanStepRel 4 s s' ∧ s'.m_endedStream = s.m_endedStream := by
  obtain ⟨hrel, hended⟩ := rel_ScanAndEnqueue s3 ty B hB hty p03.pcol p03.pgood
  constructor
  · have h := p03.1.rtrans hrel
    rw [heq] at h
    exact h.rmono (by omega)
  · rw [heq] at hended
    exact hended.trans p03.2.2

/-- Master step lemma: one ScanNextToken call from a started state with a
nonnegative column and a well-formed indentation stack satisfies the step
relation, and either preserves the ended flag or has just emitted StreamEnd,
in which case the flow level is unchanged and, outside flow context, the
indentation stack has been popped down to the sentinel. -/
theorem scanNextToken_step {s s' : Scanner} (hst : s.m_startedStream = true)
    (hc : 0 ≤ s.m_column) (hg : GoodStack s.m_indents)
    (hok : s.ScanNextToken = Except.ok s') :
    ScanStepRel 4 s s' ∧
    (s'.m_endedStream = s.m_endedStream ∨
      (s'.m_endedStream = true ∧ s'.m_flowLevel = s.m_flowLevel ∧
        (¬0 < s.m_flowLevel → s'.m_indents = [-1]))) := by
  unfold Scanner.ScanNextToken at hok
  by_cases hend : s.m_endedStream = true
  · rw [if_pos hend] at hok
    have heq := Except.ok.inj hok
    exact ⟨heq ▸ (rel_refl hc hg).rmono (by omega), Or.inl (heq ▸ rfl)⟩
  · rw [if_neg hend] at hok
    rw [if_neg (show ¬s.m_startedStream = false by simp [hst])] at hok
    dsimp only [] at hok
    set s1 := Scanner.ScanToNextTokenF (s.input.length + 1) s with hs1
    set s2 := s1.ValidateSimpleKey with hs2
    set s3 := s2.PopIndentTo s2.m_column with hs3
    have hskip : SkipFrame s s2 :=
      SkipFrame.ktrans (skipFrame_ScanToNextTokenF (s.input.length + 1) s)
        (statusOnly_ValidateSimpleKey s1).sskip
    have p02 : PieceRel 0 s s2 := piece_of_skipFrame hskip hc hg
    have hcol2 : (-1 : Int) ≤ s2.m_column := by
      have := p02.pcol
      omega
    have p23 : PieceRel 0 s2 s3 :=
      piece_popIndentTo s2 s2.m_column hcol2 p02.pcol p02.pgood
    have p03 : PieceRel 0 s s3 := p02.ptrans p23
    have hflow3 : s3.m_flowLevel = s.m_flowLevel := by
      have h1 : s2.m_flowLevel = s.m_flowLevel := hskip.2.2.2.2.1
      rcases popIndentTo_fields s2 s2.m_column with ⟨heq, _⟩ | ⟨_, heq⟩ <;>
        rw [hs3, heq] <;> exact h1
    rcases hcl : s3.classify with _ | _ | _ | _ | _ | _ | _ | _ | _ | _ | _ | _ | _ | _ | _ <;>
      rw [hcl] at hok <;> simp only [Scanner.dispatch, Except.ok.injEq] at hok
    · obtain ⟨hrel, hend1, hflw, hsnt⟩ :=
        rel_ScanAndEnqueue_streamEnd s3 p03.pcol p03.pgood
      have heq := hok
      refine ⟨heq ▸ (p03.1.rtrans hrel).rmono (by omega), Or.inr ⟨heq ▸ hend1, ?_, ?_⟩⟩
      · rw [← heq]
        exact hflw.trans hflow3
      · intro hfl
        rw [← heq]
        refine hsnt ?_
        rw [hflow3]
        exact hfl
    · exact (masterOrdinary bodyOK_doc (by refine ⟨?_, ?_, ?_⟩ <;> decide) (by omega)
        p03 hok).imp id Or.inl
    · exact (masterOrdinary bodyOK_doc (by refine ⟨?_, ?_, ?_⟩ <;> decide) (by omega)
        p03 hok).imp id Or.inl
    · exact (masterOrdinary bodyOK_flowStart (by refine ⟨?_, ?_, ?_⟩ <;> decide) (by omega)
        p03 hok).imp id Or.inl
    · exact (masterOrdinary bodyOK_flowEnd (by refine ⟨?_, ?_, ?_⟩ <;> decide) (by omega)
        p03 hok).imp id Or.inl
    · exact (masterOrdinary bodyOK_flowStart (by refine ⟨?_, ?_, ?_⟩ <;> decide) (by omega)
        p03 hok).imp id Or.inl
    · exact (masterOrdinary bodyOK_flowEnd (by refine ⟨?_, ?_, ?_⟩ <;> decide) (by omega)
        p03 hok).imp id Or.inl
    · exact (masterOrdinary bodyOK_flowEntry (by refine ⟨?_, ?_, ?_⟩ <;> decide) (by omega)
        p03 hok).imp id Or.inl
    · exact (masterOrdinary bodyOK_blockEntry (by refine ⟨?_, ?_, ?_⟩ <;> decide) (by omega)
        p03 hok).imp id Or.inl
    · exact (masterOrdinary bodyOK_key (by refine ⟨?_, ?_, ?_⟩ <;> decide) (by omega)
        p03 hok).imp id Or.inl
    · exact (masterOrdinary bodyOK_value (by refine ⟨?_, ?_, ?_⟩ <;> decide) (by omega)
        p03 hok).imp id Or.inl
    · have heq := hok
      exact ⟨heq ▸ p03.1.rmono (by omega), Or.inl (heq ▸ p03.2.2)⟩
    · exact (masterOrdinary bodyOK_quoted (by refine ⟨?_, ?_, ?_⟩ <;> decide) (by omega)
        p03 hok).imp id Or.inl
    · exact (masterOrdinary bodyOK_plain (by refine ⟨?_, ?_, ?_⟩ <;> decide) (by omega)
        p03 hok).imp id Or.inl
    · exact Except.noConfusion hok

/-- Balance of block starts, block ends and the indentation depth is carried
unchanged across every scan step. -/
theorem bal_step {c : Nat} {s s' : Scanner} (h : ScanStepRel c s s') :
    countType TokenType.blockEnd s'.m_tokens + s'.m_indents.length
        + countType TokenType.blockSeqStart s.m_tokens
        + countType TokenType.blockMapStart s.m_tokens
      = countType TokenType.blockSeqStart s'.m_tokens
        + countType TokenType.blockMapStart s'.m_tokens
        + countType TokenType.blockEnd s.m_tokens + s.m_indents.length := by
  obtain ⟨-, -, -, -, -, -, f, new, hf, ht, -, -, hcnt, -⟩ := h
  rw [ht, countType_append, countType_append, countType_append,
    countType_map hf, countType_map hf, countType_map hf]
  omega

/-- Partition of a token list into its BlockEnd and non-BlockEnd members. -/
theorem length_filter_blockEnd (l : List Token) :
    (l.filter fun u => decide (u.type ≠ TokenType.blockEnd)).length
      + countType TokenType.blockEnd l = l.length := by
  unfold countType
  induction l with
  | nil => rfl
  | cons t rest ih =>
      simp only [List.filter_cons]
      by_cases hty : t.type = TokenType.blockEnd
      · rw [if_neg (by simp [hty]), if_pos (by simp [hty])]
        simp only [List.length_cons]
        omega
      · rw [if_pos (by simp [hty]), if_neg (by simp [hty])]
        simp only [List.length_cons]
        omega

/-- Queue and indentation stack together grow by at most the step bound. -/
theorem stepRel_size {c : Nat} {s s' : Scanner} (h : ScanStepRel c s s') :
    s'.m_tokens.length + s'.m_indents.length
      ≤ s.m_tokens.length + s.m_indents.length + c := by
  obtain ⟨-, -, -, -, -, -, f, new, hf, ht, -, -, hcnt, hbound⟩ := h
  have hlen : s'.m_tokens.length = s.m_tokens.length + new.length := by
    rw [ht]
    simp
  have hsplit := length_filter_blockEnd new
  omega

/-- ScanNextToken from a fresh (not yet started) scanner emits exactly the
StreamStart token, marks the stream started, allows a simple key and pushes
the sentinel indentation. -/
theorem scanNextToken_unstarted {s : Scanner} (hst : s.m_startedStream = false)
    (hend : s.m_endedStream = false) :
    s.ScanNextToken = Except.ok
      { s with m_startedStream := true, m_simpleKeyAllowed := true,
               m_indents := -1 :: s.m_indents,
               m_tokens := s.m_tokens ++ [Token.mk TokenType.streamStart [] true true s.nextId],
               m_limboTokens := s.m_limboTokens.filter fun x => decide (x.id ≠ s.nextId),
               nextId := s.nextId + 1 } := by
  unfold Scanner.ScanNextToken
  rw [if_neg (by simp [hend]), if_pos hst, scanStreamStart_eq]

/-- Once the stream has ended, the scan-only loop is over. -/
theorem scanAllF_ended {s : Scanner} (hend : s.m_endedStream = true) (n : Nat) :
    scanAllF n s = Except.ok s := by
  cases n with
  | zero => rfl
  | succ n =>
      unfold scanAllF
      rw [if_pos hend]

/-- Invariant carried by the scan-only loop over started states: nonnegative
column, well-formed indentation stack, and the balance between block-token
counts and the stack depth. -/
def ScanInv (s : Scanner) : Prop :=
  s.m_startedStream = true ∧ 0 ≤ s.m_column ∧ GoodStack s.m_indents ∧
    countType TokenType.blockEnd s.m_tokens + s.m_indents.length
      = countType TokenType.blockSeqStart s.m_tokens
        + countType TokenType.blockMapStart s.m_tokens + 1

theorem scanInv_step {s s' : Scanner} (hinv : ScanInv s)
    (hstep : ScanStepRel 4 s s') : ScanInv s' := by
  obtain ⟨hst, hc, hg, hbal⟩ := hinv
  have hbal2 := bal_step hstep
  exact ⟨hstep.2.2.2.2.1.trans hst, hstep.2.1, hstep.2.2.2.2.2.1, by omega⟩

/-- A scan-only run from a started state keeps the invariant, and if the run
reached the end of the stream outside flow context, the indentation stack has
been popped down to the bare sentinel. -/
theorem scanAllF_run : ∀ (n : Nat) (s s' : Scanner), ScanInv s →
    s.m_endedStream = false → scanAllF n s = Except.ok s' →
    ScanInv s' ∧ (s'.m_endedStream = true → ¬0 < s'.m_flowLevel → s'.m_indents = [-1]) := by
  intro n
  induction n with
  | zero =>
      intro s s' hinv hend hok
      have heq := Except.ok.inj hok
      subst heq
      exact ⟨hinv, fun h1 _ => absurd h1 (by simp [hend])⟩
  | succ n ih =>
      intro s s' hinv hend hok
      unfold scanAllF at hok
      rw [if_neg (by simp [hend])] at hok
      rcases hscan : s.ScanNextToken with e | s2
      · rw [hscan] at hok
        exact Except.noConfusion hok
      · rw [hscan] at hok
        dsimp only [] at hok
        obtain ⟨hrel, hdis⟩ := scanNextToken_step hinv.1 hinv.2.1 hinv.2.2.1 hscan
        have hinv2 : ScanInv s2 := scanInv_step hinv hrel
        by_cases hend2 : s2.m_endedStream = true
        · rw [scanAllF_ended hend2 n] at hok
          have heq := Except.ok.inj hok
          subst heq
          refine ⟨hinv2, fun _ hflow => ?_⟩
          rcases hdis with h1 | ⟨h2, h3, h4⟩
          · rw [hend2] at h1
            exact absurd h1.symm (by simp [hend])
          · refine h4 ?_
            rw [← h3]
            exact hflow
        · have hend2f : s2.m_endedStream = false := by
            cases h : s2.m_endedStream
            · rfl
            · exact absurd h hend2
          exact ih s2 s' hinv2 hend2f hok

/-- A scan-only run from the initial scanner either did nothing (zero fuel)
or reaches a state satisfying the invariant; if it ended outside flow
context, the stack has been popped down to the sentinel. -/
theorem scanAllF_init {input : List Char} {fuel : Nat} {s' : Scanner}
    (hok : scanAllF fuel (initScanner input) = Except.ok s') :
    s' = initScanner input ∨
      (ScanInv s' ∧
        (s'.m_endedStream = true → ¬0 < s'.m_flowLevel → s'.m_indents = [-1])) := by
  cases fuel with
  | zero => exact Or.inl (Except.ok.inj hok).symm
  | succ n =>
      unfold scanAllF at hok
      rw [if_neg (by simp [initScanner])] at hok
      have hstep : (initScanner input).ScanNextToken = Except.ok
          ⟨input, true, false, true, 0, 0, 0, [-1],
            [Token.mk TokenType.streamStart [] true true 0], [], 1, none⟩ := by
        rw [scanNextToken_unstarted rfl rfl]
        exact congrArg Except.ok rfl
      rw [hstep] at hok
      dsimp only [] at hok
      refine Or.inr (scanAllF_run n
        ⟨input, true, false, true, 0, 0, 0, [-1],
          [Token.mk TokenType.streamStart [] true true 0], [], 1, none⟩
        s' ⟨rfl, le_refl 0, ?_, rfl⟩ rfl hok)
      exact ⟨List.cons_ne_nil _ _, rfl, List.chain'_singleton _⟩

/-- Final scanner state of the scan-only run on the input `a` (computed by
the model; used as concrete witness data). -/
def endStateA : Scanner :=
  ⟨[], true, true, false, 0, 0, 1, [-1],
    [Token.mk TokenType.streamStart [] true true 0,
     Token.mk TokenType.blockMapStart [] false false 2,
     Token.mk TokenType.key [] false false 3,
     Token.mk TokenType.plainScalar ['a'] true true 1,
     Token.mk TokenType.blockEnd [] true true 5,
     Token.mk TokenType.streamEnd [] true true 4],
    [], 6, none⟩

/-- C5: for every input, a scan run that has emitted StreamEnd with all flow
collectives closed (final flow level zero) has enqueued exactly as many
BlockEnd tokens as BlockSeqStart plus BlockMapStart tokens.  (The flow-level
hypothesis is needed: an unclosed flow collection suppresses the closing
BlockEnds, see the counterexample.) -/
theorem blockTokens_balanced_at_streamEnd (input : List Char) (fuel : Nat)
    (s' : Scanner) (hok : scanAllF fuel (initScanner input) = Except.ok s')
    (hend : s'.m_endedStream = true) (hflow : s'.m_flowLevel = 0) :
    countType TokenType.blockEnd s'.m_tokens
      = countType TokenType.blockSeqStart s'.m_tokens
        + countType TokenType.blockMapStart s'.m_tokens := by
  rcases scanAllF_init hok with rfl | ⟨hinv, hsent⟩
  · exact absurd hend (by simp [initScanner])
  · have hind : s'.m_indents = [-1] := by
      refine hsent hend ?_
      rw [hflow]
      exact lt_irrefl 0
    have hbal := hinv.2.2.2
    rw [hind] at hbal
    simp only [List.length_singleton] at hbal
    omega

/-- Counterexample data for C5 as frozen: on the input `- [` the scanner
reaches stream end (an unclosed flow sequence) with one BlockSeqStart and no
BlockEnd enqueued. -/
theorem blockTokens_unbalanced_unclosed_flow :
    (scanAllF 20 (initScanner ['-', ' ', '['])).toOption.map
        (fun s => (s.m_endedStream,
          countType TokenType.blockEnd s.m_tokens,
          countType TokenType.blockSeqStart s.m_tokens
            + countType TokenType.blockMapStart s.m_tokens))
      = some (true, 0, 1) := by decide

theorem blockTokens_balanced_at_streamEnd_witness :
    scanAllF 10 (initScanner ['a']) = Except.ok endStateA ∧
    endStateA.m_endedStream = true ∧ endStateA.m_flowLevel = 0 ∧
    countType TokenType.blockEnd endStateA.m_tokens
      = countType TokenType.blockSeqStart endStateA.m_tokens
        + countType TokenType.blockMapStart endStateA.m_tokens :=
  ⟨by rfl, by decide, by decide,
    blockTokens_balanced_at_streamEnd ['a'] 10 endStateA (by rfl) (by decide)
      (by decide)⟩

/-- C4: in every state the scan-only loop can reach in which the stream has
started, the indentation stack is well formed — nonempty, its bottom is the
sentinel -1, and it is strictly increasing from bottom to top; moreover
PushIndentTo either leaves the stack alone or pushes a column strictly
greater than the current top, and PopIndentTo only ever removes entries from
the top.  (The started-stream hypothesis is needed: the constructor leaves
the stack empty, with no sentinel, see the counterexample.) -/
theorem indentStack_invariant (input : List Char) (fuel : Nat) (s' : Scanner)
    (hok : scanAllF fuel (initScanner input) = Except.ok s')
    (hst : s'.m_startedStream = true) :
    GoodStack s'.m_indents ∧
    (∀ (t : Scanner) (col : Int) (sq : Bool),
        (t.PushIndentTo col sq).2.m_indents = t.m_indents ∨
          (t.m_indents.headI < col ∧
            (t.PushIndentTo col sq).2.m_indents = col :: t.m_indents)) ∧
    (∀ (t : Scanner) (col : Int), (t.PopIndentTo col).m_indents <:+ t.m_indents) := by
  rcases scanAllF_init hok with rfl | ⟨hinv, -⟩
  · exact absurd hst (by simp [initScanner])
  · refine ⟨hinv.2.2.1, ?_, ?_⟩
    · intro t col sq
      rcases pushIndentTo_cases t col sq with ⟨h1, -⟩ | ⟨-, h2, h3, -⟩
      · exact Or.inl (by rw [h1])
      · refine Or.inr ⟨h2, ?_⟩
        rw [h3]
    · intro t col
      rcases popIndentTo_fields t col with ⟨h1, -⟩ | ⟨-, h2⟩
      · rw [h1]
      · rw [h2]
        obtain ⟨k, hdrop, -⟩ := popIndents_spec col t.m_indents t.m_tokens t.nextId
        show (popIndents col t.m_indents t.m_tokens t.nextId).1 <:+ t.m_indents
        rw [hdrop]
        exact List.drop_suffix k _

/-- Counterexample data for C4 as frozen: the constructed scanner is itself a
reachable state (a zero-step run), and its indentation stack is empty — it
holds no sentinel bottom value. -/
theorem indentStack_empty_at_construction :
    scanAllF 0 (initScanner []) = Except.ok (initScanner []) ∧
      (initScanner []).m_indents = [] :=
  ⟨rfl, rfl⟩

theorem indentStack_invariant_witness :
    scanAllF 10 (initScanner ['a']) = Except.ok endStateA ∧
    endStateA.m_startedStream = true ∧
    (GoodStack endStateA.m_indents ∧
      (∀ (t : Scanner) (col : Int) (sq : Bool),
          (t.PushIndentTo col sq).2.m_indents = t.m_indents ∨
            (t.m_indents.headI < col ∧
              (t.PushIndentTo col sq).2.m_indents = col :: t.m_indents)) ∧
      (∀ (t : Scanner) (col : Int), (t.PopIndentTo col).m_indents <:+ t.m_indents)) :=
  ⟨by rfl, by decide,
    indentStack_invariant ['a'] 10 endStateA (by rfl) (by decide)⟩

/-- Every heap identity allocated so far is accounted for: the token was
either handed to the consumer, or deleted by GetNextToken, or still sits in
the queue. -/
def Covered (s : Scanner) (acc : List Token) (del : List Nat) : Prop :=
  ∀ i, i < s.nextId →
    (∃ t ∈ acc, t.id = i) ∨ i ∈ del ∨ ∃ t ∈ s.m_tokens, t.id = i

theorem covered_step {c : Nat} {s s2 : Scanner} {acc : List Token} {del : List Nat}
    (h : ScanStepRel c s s2) (hcov : Covered s acc del) : Covered s2 acc del := by
  obtain ⟨-, -, hle, -, -, -, f, new, hf, ht, -, hcovnew, -, -⟩ := h
  intro i hi
  by_cases hold : i < s.nextId
  · rcases hcov i hold with h1 | h2 | ⟨t, htm, hti⟩
    · exact Or.inl h1
    · exact Or.inr (Or.inl h2)
    · refine Or.inr (Or.inr ⟨f t, ?_, ?_⟩)
      · rw [ht]
        exact List.mem_append.mpr (Or.inl (List.mem_map.mpr ⟨t, htm, rfl⟩))
      · rw [(hf t).1, hti]
  · obtain ⟨u, hu, hui⟩ := hcovnew i (by omega) hi
    refine Or.inr (Or.inr ⟨u, ?_, hui⟩)
    rw [ht]
    exact List.mem_append.mpr (Or.inr hu)

theorem covered_pop_retracted {s : Scanner} {t : Token} {rest acc : List Token}
    {del : List Nat} (ht : s.m_tokens = t :: rest) (hcov : Covered s acc del) :
    Covered { s with m_tokens := rest } acc (t.id :: del) := by
  intro i hi
  rcases hcov i hi with h1 | h2 | ⟨u, hum, hui⟩
  · exact Or.inl h1
  · exact Or.inr (Or.inl (List.mem_cons_of_mem _ h2))
  · rw [ht] at hum
    rcases List.mem_cons.mp hum with rfl | hm
    · exact Or.inr (Or.inl (by rw [← hui]; exact List.mem_cons_self _ _))
    · exact Or.inr (Or.inr ⟨u, hm, hui⟩)

theorem covered_pop_confirmed {s : Scanner} {t : Token} {rest acc : List Token}
    {del : List Nat} (ht : s.m_tokens = t :: rest) (hcov : Covered s acc del) :
    Covered { s with m_tokens := rest } (acc ++ [t]) del := by
  intro i hi
  rcases hcov i hi with ⟨u, hum, hui⟩ | h2 | ⟨u, hum, hui⟩
  · exact Or.inl ⟨u, List.mem_append.mpr (Or.inl hum), hui⟩
  · exact Or.inr (Or.inl h2)
  · rw [ht] at hum
    rcases List.mem_cons.mp hum with rfl | hm
    · exact Or.inl ⟨u, List.mem_append.mpr (Or.inr (List.mem_singleton.mpr rfl)), hui⟩
    · exact Or.inr (Or.inr ⟨u, hm, hui⟩)

/-- The driver loop preserves emptiness of the limbo set and the coverage of
every allocated heap identity, whatever it returns. -/
theorem scanLoopF_cover : ∀ (n : Nat) (s : Scanner) (acc acc' : List Token)
    (del : List Nat) (del' : List Nat) (sf : Scanner) (oe : Option ScanError),
    s.m_startedStream = true → 0 ≤ s.m_column → GoodStack s.m_indents →
    s.m_limboTokens = [] → Covered s acc del →
    scanLoopF n s acc del = (acc', del', sf, oe) →
    sf.m_limboTokens = [] ∧ Covered sf acc' del' := by
  intro n
  induction n with
  | zero =>
      intro s acc acc' del del' sf oe hst hc hg hl hcov hrun
      unfold scanLoopF at hrun
      simp only [Prod.mk.injEq] at hrun
      obtain ⟨rfl, rfl, rfl, rfl⟩ := hrun
      exact ⟨hl, hcov⟩
  | succ n ih =>
      intro s acc acc' del del' sf oe hst hc hg hl hcov hrun
      unfold scanLoopF at hrun
      rcases htk : s.m_tokens with _ | ⟨t, rest⟩
      · rw [htk] at hrun
        dsimp only [] at hrun
        by_cases hend : s.m_endedStream = true
        · rw [if_pos hend] at hrun
          simp only [Prod.mk.injEq] at hrun
          obtain ⟨rfl, rfl, rfl, rfl⟩ := hrun
          exact ⟨hl, hcov⟩
        · rw [if_neg hend] at hrun
          rcases hscan : s.ScanNextToken with e | s2
          · rw [hscan] at hrun
            dsimp only [] at hrun
            simp only [Prod.mk.injEq] at hrun
            obtain ⟨rfl, rfl, rfl, rfl⟩ := hrun
            exact ⟨hl, hcov⟩
          · rw [hscan] at hrun
            dsimp only [] at hrun
            obtain ⟨hrel, -⟩ := scanNextToken_step hst hc hg hscan
            exact ih s2 acc acc' del del' sf oe (hrel.2.2.2.2.1.trans hst) hrel.2.1
              hrel.2.2.2.2.2.1 (hrel.2.2.2.1 hl) (covered_step hrel hcov) hrun
      · rw [htk] at hrun
        dsimp only [] at hrun
        by_cases hp : t.isPossible = false
        · rw [if_pos hp] at hrun
          exact ih { s with m_tokens := rest } acc acc' (t.id :: del) del' sf oe hst hc hg
            hl (covered_pop_retracted htk hcov) hrun
        · rw [if_neg hp] at hrun
          by_cases hv : t.isValid = true
          · rw [if_pos hv] at hrun
            exact ih { s with m_tokens := rest } (acc ++ [t]) acc' del del' sf oe hst hc
              hg hl (covered_pop_confirmed htk hcov) hrun
          · rw [if_neg hv] at hrun
            by_cases hend : s.m_endedStream = true
            · rw [if_pos hend] at hrun
              simp only [Prod.mk.injEq] at hrun
              obtain ⟨rfl, rfl, rfl, rfl⟩ := hrun
              exact ⟨hl, hcov⟩
            · rw [if_neg hend] at hrun
              rcases hscan : s.ScanNextToken with e | s2
              · rw [hscan] at hrun
                dsimp only [] at hrun
                simp only [Prod.mk.injEq] at hrun
                obtain ⟨rfl, rfl, rfl, rfl⟩ := hrun
                exact ⟨hl, hcov⟩
              · rw [hscan] at hrun
                dsimp only [] at hrun
                obtain ⟨hrel, -⟩ := scanNextToken_step hst hc hg hscan
                exact ih s2 acc acc' del del' sf oe (hrel.2.2.2.2.1.trans hst) hrel.2.1
                  hrel.2.2.2.2.2.1 (hrel.2.2.2.1 hl) (covered_step hrel hcov) hrun

/-- C7: a driver run that ends in a scan error leaves nothing in the limbo
set, and every token allocated during the run was either handed to the
consumer (who frees it), deleted by GetNextToken itself, or is still in the
token queue — which the Scanner destructor frees together with the limbo
set — so no allocation is outstanding once the error has propagated and the
scanner is destroyed. -/
theorem noLeak_on_scan_error (input : List Char) (fuel : Nat)
    (acc : List Token) (del : List Nat) (sf : Scanner) (e : ScanError)
    (hrun : scanLoopF fuel (initScanner input) [] [] = (acc, del, sf, some e)) :
    sf.m_limboTokens = [] ∧
    ∀ i, i < sf.nextId →
      (∃ t ∈ acc, t.id = i) ∨ i ∈ del ∨ ∃ t ∈ sf.m_tokens, t.id = i := by
  cases fuel with
  | zero =>
      unfold scanLoopF at hrun
      simp only [Prod.mk.injEq] at hrun
      exact absurd hrun.2.2.2 (by simp)
  | succ n =>
      unfold scanLoopF at hrun
      rw [show ((initScanner input).m_tokens) = ([] : List Token) from rfl] at hrun
      dsimp only [] at hrun
      rw [if_neg (by simp [initScanner])] at hrun
      have hstep : (initScanner input).ScanNextToken = Except.ok
          ⟨input, true, false, true, 0, 0, 0, [-1],
            [Token.mk TokenType.streamStart [] true true 0], [], 1, none⟩ := by
        rw [scanNextToken_unstarted rfl rfl]
        exact congrArg Except.ok rfl
      rw [hstep] at hrun
      dsimp only [] at hrun
      refine scanLoopF_cover n
        ⟨input, true, false, true, 0, 0, 0, [-1],
          [Token.mk TokenType.streamStart [] true true 0], [], 1, none⟩
        [] acc [] del sf (some e) rfl (le_refl 0)
        ⟨List.cons_ne_nil _ _, rfl, List.chain'_singleton _⟩ rfl ?_ hrun
      intro i hi
      refine Or.inr (Or.inr ⟨Token.mk TokenType.streamStart [] true true 0, ?_, ?_⟩)
      · exact List.mem_singleton.mpr rfl
      · have hi1 : i < 1 := hi
        show (0 : Nat) = i
        omega

theorem noLeak_on_scan_error_witness :
    scanLoopF 5 (initScanner ['@']) [] []
        = ([Token.mk TokenType.streamStart [] true true 0], [],
            ⟨['@'], true, false, true, 0, 0, 0, [-1], [], [], 1, none⟩,
            some ScanError.unknownToken) ∧
    ((⟨['@'], true, false, true, 0, 0, 0, [-1], [], [], 1, none⟩ :
        Scanner).m_limboTokens = [] ∧
      ∀ i, i < (⟨['@'], true, false, true, 0, 0, 0, [-1], [], [], 1, none⟩ :
          Scanner).nextId →
        (∃ t ∈ [Token.mk TokenType.streamStart [] true true 0], t.id = i) ∨
          i ∈ ([] : List Nat) ∨
          ∃ t ∈ (⟨['@'], true, false, true, 0, 0, 0, [-1], [], [], 1, none⟩ :
            Scanner).m_tokens, t.id = i) :=
  ⟨by rfl,
    noLeak_on_scan_error ['@'] 5 [Token.mk TokenType.streamStart [] true true 0] []
      ⟨['@'], true, false, true, 0, 0, 0, [-1], [], [], 1, none⟩
      ScanError.unknownToken (by rfl)⟩

theorem getChar_input_lt {s : Scanner} (h : s.input ≠ []) :
    s.GetChar.input.length < s.input.length := by
  unfold Scanner.GetChar
  rcases hin : s.input with _ | ⟨c, rest⟩
  · exact absurd hin h
  · dsimp only []
    split
    · simp
    · simp

theorem eat_input_le (s : Scanner) (n : Nat) : (s.Eat n).input.length ≤ s.input.length :=
  (moveOnly_Eat s n).1.length_le

theorem eat_input_lt {s : Scanner} (h : s.input ≠ []) (n : Nat) :
    (s.Eat (n + 1)).input.length < s.input.length := by
  show ((s.GetChar).Eat n).input.length < s.input.length
  exact lt_of_le_of_lt (eat_input_le _ n) (getChar_input_lt h)

theorem popIndentTo_input (s : Scanner) (col : Int) :
    (s.PopIndentTo col).input = s.input := by
  rcases popIndentTo_fields s col with ⟨h, -⟩ | ⟨-, h⟩ <;> rw [h]

theorem pushIndentTo_input (s : Scanner) (col : Int) (sq : Bool) :
    (s.PushIndentTo col sq).2.input = s.input := by
  rcases pushIndentTo_cases s col sq with ⟨h, -⟩ | ⟨-, -, h, -⟩ <;> rw [h]

theorem decreaseFlowLevel_input (s : Scanner) : s.DecreaseFlowLevel.input = s.input := by
  unfold Scanner.DecreaseFlowLevel
  split
  · rfl
  · rfl

theorem insertSimpleKey_input (s : Scanner) : s.InsertSimpleKey.input = s.input := by
  unfold Scanner.InsertSimpleKey Scanner.newToken
  dsimp only []
  split
  · show (s.retractPending.PushIndentTo s.retractPending.m_column false).2.input = s.input
    rw [pushIndentTo_input]
    exact (statusOnly_retractPending s).1
  · show (s.retractPending.PushIndentTo s.retractPending.m_column false).2.input = s.input
    rw [pushIndentTo_input]
    exact (statusOnly_retractPending s).1

theorem consume_body_doc (s : Scanner) (t : Token) (h : s.input ≠ []) :
    ((Scanner.ScanDocBody s t).2).input.length < s.input.length := by
  show ((s.retractPending.PopIndentTo (-1)).Eat 3).input.length < s.input.length
  have h1 : (s.retractPending.PopIndentTo (-1)).input = s.input := by
    rw [popIndentTo_input]
    exact (statusOnly_retractPending s).1
  calc ((s.retractPending.PopIndentTo (-1)).Eat 3).input.length
      < (s.retractPending.PopIndentTo (-1)).input.length := by
        refine eat_input_lt ?_ 2
        rw [h1]
        exact h
    _ = s.input.length := by rw [h1]

theorem increaseFlowLevel_input (s : Scanner) : s.IncreaseFlowLevel.input = s.input :=
  rfl

theorem consume_body_flowStart (s : Scanner) (t : Token) (h : s.input ≠ []) :
    ((Scanner.ScanFlowStartBody s t).2).input.length < s.input.length := by
  show ((s.IncreaseFlowLevel).Eat 1).input.length < s.input.length
  have h1 := increaseFlowLevel_input s
  calc ((s.IncreaseFlowLevel).Eat 1).input.length
      < (s.IncreaseFlowLevel).input.length := by
        refine eat_input_lt ?_ 0
        rw [h1]
        exact h
    _ = s.input.length := by rw [h1]

theorem consume_body_flowEnd (s : Scanner) (t : Token) (h : s.input ≠ []) :
    ((Scanner.ScanFlowEndBody s t).2).input.length < s.input.length := by
  show ((s.DecreaseFlowLevel).Eat 1).input.length < s.input.length
  have h1 := decreaseFlowLevel_input s
  calc ((s.DecreaseFlowLevel).Eat 1).input.length
      < (s.DecreaseFlowLevel).input.length := by
        refine eat_input_lt ?_ 0
        rw [h1]
        exact h
    _ = s.input.length := by rw [h1]

theorem consume_body_flowEntry (s : Scanner) (t : Token) (h : s.input ≠ []) :
    ((Scanner.ScanFlowEntryBody s t).2).input.length < s.input.length := by
  show ((s.Eat 1)).input.length < s.input.length
  exact eat_input_lt h 0

theorem consume_body_blockEntry (s : Scanner) (t : Token) (h : s.input ≠ []) :
    ((Scanner.ScanBlockEntryBody s t).2).input.length < s.input.length := by
  show (((s.PushIndentTo s.m_column true).2).Eat 1).input.length < s.input.length
  have h1 := pushIndentTo_input s s.m_column true
  calc (((s.PushIndentTo s.m_column true).2).Eat 1).input.length
      < ((s.PushIndentTo s.m_column true).2).input.length := by
        refine eat_input_lt ?_ 0
        rw [h1]
        exact h
    _ = s.input.length := by rw [h1]

theorem consume_body_key (s : Scanner) (t : Token) (h : s.input ≠ []) :
    ((Scanner.ScanKeyBody s t).2).input.length < s.input.length := by
  unfold Scanner.ScanKeyBody
  dsimp only []
  split
  · show (((s.PushIndentTo s.m_column false).2).Eat 1).input.length < s.input.length
    have h1 := pushIndentTo_input s s.m_column false
    calc (((s.PushIndentTo s.m_column false).2).Eat 1).input.length
        < ((s.PushIndentTo s.m_column false).2).input.length := by
          refine eat_input_lt ?_ 0
          rw [h1]
          exact h
      _ = s.input.length := by rw [h1]
  · show ((s.Eat 1)).input.length < s.input.length
    exact eat_input_lt h 0

theorem consume_body_value (s : Scanner) (t : Token) (h : s.input ≠ []) :
    ((Scanner.ScanValueBody s t).2).input.length < s.input.length := by
  unfold Scanner.ScanValueBody
  rcases hpk : s.pendingKey with _ | k
  · dsimp only []
    split
    · show (((s.PushIndentTo s.m_column false).2).Eat 1).input.length < s.input.length
      have h1 := pushIndentTo_input s s.m_column false
      calc (((s.PushIndentTo s.m_column false).2).Eat 1).input.length
          < ((s.PushIndentTo s.m_column false).2).input.length := by
            refine eat_input_lt ?_ 0
            rw [h1]
            exact h
        _ = s.input.length := by rw [h1]
    · show ((s.Eat 1)).input.length < s.input.length
      exact eat_input_lt h 0
  · dsimp only []
    split
    · show ((s.confirmPending).Eat 1).input.length < s.input.length
      have h1 : (s.confirmPending).input = s.input := (statusOnly_confirmPending s).1
      calc ((s.confirmPending).Eat 1).input.length
          < (s.confirmPending).input.length := by
            refine eat_input_lt ?_ 0
            rw [h1]
            exact h
        _ = s.input.length := by rw [h1]
    · have hr : (s.retractPending).input = s.input := (statusOnly_retractPending s).1
      split
      · show (((s.retractPending.PushIndentTo s.retractPending.m_column false).2).Eat
            1).input.length < s.input.length
        have h1 := pushIndentTo_input s.retractPending s.retractPending.m_column false
        calc (((s.retractPending.PushIndentTo s.retractPending.m_column
              false).2).Eat 1).input.length
            < ((s.retractPending.PushIndentTo s.retractPending.m_column
                false).2).input.length := by
              refine eat_input_lt ?_ 0
              rw [h1, hr]
              exact h
          _ = s.input.length := by rw [h1, hr]
      · show ((s.retractPending).Eat 1).input.length < s.input.length
        calc ((s.retractPending).Eat 1).input.length
            < (s.retractPending).input.length := by
              refine eat_input_lt ?_ 0
              rw [hr]
              exact h
          _ = s.input.length := by rw [hr]

theorem consume_body_plain (s : Scanner) (t : Token) (h : s.input ≠ []) :
    ((Scanner.ScanPlainScalarBody s t).2).input.length < s.input.length := by
  unfold Scanner.ScanPlainScalarBody
  dsimp only []
  set s1 := if s.m_simpleKeyAllowed then s.InsertSimpleKey else s with hdef
  have hs1 : s1.input = s.input := by
    rw [hdef]
    split
    · exact insertSimpleKey_input s
    · rfl
  rcases hin : s1.input with _ | ⟨c, rest⟩
  · rw [← hs1] at h
    exact absurd hin h
  · dsimp only []
    refine lt_of_le_of_lt ((moveOnly_readPlainScalarF _ _ _).1.length_le) ?_
    have hlen : s.input = c :: rest := by
      rw [← hs1, hin]
    rw [hlen]
    exact eat_input_lt (List.cons_ne_nil c rest) 0

theorem consume_body_quoted (s : Scanner) (t : Token) (h : s.input ≠ []) :
    ((Scanner.ScanQuotedScalarBody s t).2).input.length < s.input.length := by
  unfold Scanner.ScanQuotedScalarBody
  dsimp only []
  set s1 := if s.m_simpleKeyAllowed then s.InsertSimpleKey else s with hdef
  have hs1 : s1.input = s.input := by
    rw [hdef]
    split
    · exact insertSimpleKey_input s
    · rfl
  rcases hin : s1.input with _ | ⟨c, rest⟩
  · rw [← hs1] at h
    exact absurd hin h
  · dsimp only []
    refine lt_of_le_of_lt ((moveOnly_readQuotedF _ _ _ _).1.length_le) ?_
    have hlen : s.input = c :: rest := by
      rw [← hs1, hin]
    rw [hlen]
    exact eat_input_lt (List.cons_ne_nil c rest) 0

theorem consume_ScanAndEnqueue {B : Scanner → Token → Token × Scanner}
    (hB : ∀ s t, s.input ≠ [] → ((B s t).2).input.length < s.input.length)
    (s : Scanner) (ty : TokenType) (h : s.input ≠ []) :
    (s.ScanAndEnqueue ty B).input.length < s.input.length := by
  unfold Scanner.ScanAndEnqueue Scanner.newToken
  dsimp only []
  exact hB _ _ h

theorem classify_input_ne_nil {s : Scanner} (h : s.classify ≠ ScanClass.streamEnd) :
    s.input ≠ [] := by
  intro hin
  apply h
  unfold Scanner.classify
  rw [hin]

/-- The stall classification arises only at a literal or folded block-scalar
marker. -/
theorem classify_stall_head {s : Scanner} (h : s.classify = ScanClass.stall) :
    ∃ c rest, s.input = c :: rest ∧ (c = '|' ∨ c = '>') := by
  unfold Scanner.classify at h
  rcases hin : s.input with _ | ⟨c, rest⟩
  · rw [hin] at h
    exact ScanClass.noConfusion h
  · rw [hin] at h
    dsimp only [] at h
    refine ⟨c, rest, rfl, ?_⟩
    by_cases h1 : s.IsDocumentStart = true
    · rw [if_pos h1] at h
      exact ScanClass.noConfusion h
    · rw [if_neg h1] at h
      by_cases h2 : s.IsDocumentEnd = true
      · rw [if_pos h2] at h
        exact ScanClass.noConfusion h
      · rw [if_neg h2] at h
        by_cases h3 : c = '['
        · rw [if_pos h3] at h
          exact ScanClass.noConfusion h
        · rw [if_neg h3] at h
          by_cases h4 : c = ']'
          · rw [if_pos h4] at h
            exact ScanClass.noConfusion h
          · rw [if_neg h4] at h
            by_cases h5 : c = '{'
            · rw [if_pos h5] at h
              exact ScanClass.noConfusion h
            · rw [if_neg h5] at h
              by_cases h6 : c = '}'
              · rw [if_pos h6] at h
                exact ScanClass.noConfusion h
              · rw [if_neg h6] at h
                by_cases h7 : c = ','
                · rw [if_pos h7] at h
                  exact ScanClass.noConfusion h
                · rw [if_neg h7] at h
                  by_cases h8 : s.IsBlockEntry = true
                  · rw [if_pos h8] at h
                    exact ScanClass.noConfusion h
                  · rw [if_neg h8] at h
                    by_cases h9 : s.IsKey = true
                    · rw [if_pos h9] at h
                      exact ScanClass.noConfusion h
                    · rw [if_neg h9] at h
                      by_cases h10 : s.IsValue = true
                      · rw [if_pos h10] at h
                        exact ScanClass.noConfusion h
                      · rw [if_neg h10] at h
                        by_cases h11 : c = '|' ∧ s.m_flowLevel = 0
                        · exact Or.inl h11.1
                        · rw [if_neg h11] at h
                          by_cases h12 : c = '>' ∧ s.m_flowLevel = 0
                          · exact Or.inr h12.1
                          · rw [if_neg h12] at h
                            by_cases h13 : c = '\'' ∨ c = '"'
                            · rw [if_pos h13] at h
                              exact ScanClass.noConfusion h
                            · rw [if_neg h13] at h
                              by_cases h14 : s.IsPlainScalar = true
                              · rw [if_pos h14] at h
                                exact ScanClass.noConfusion h
                              · rw [if_neg h14] at h
                                exact ScanClass.noConfusion h

/-- Strengthened step lemma for GetNextToken termination: away from the
block-scalar markers, a started, non-ended ScanNextToken call either consumes
input strictly without ending the stream, or ends the stream with a step
bound of one. -/
theorem scanNextToken_progress {s s' : Scanner} (hst : s.m_startedStream = true)
    (hend : s.m_endedStream = false) (hc : 0 ≤ s.m_column) (hg : GoodStack s.m_indents)
    (hpipe : '|' ∉ s.input) (hgt : '>' ∉ s.input)
    (hok : s.ScanNextToken = Except.ok s') :
    ScanStepRel 4 s s' ∧
      ((s'.m_endedStream = false ∧ s'.input.length < s.input.length) ∨
        (s'.m_endedStream = true ∧ ScanStepRel 1 s s')) := by
  unfold Scanner.ScanNextToken at hok
  rw [if_neg (by simp [hend]), if_neg (by simp [hst])] at hok
  dsimp only [] at hok
  set s1 := Scanner.ScanToNextTokenF (s.input.length + 1) s with hs1
  set s2 := s1.ValidateSimpleKey with hs2
  set s3 := s2.PopIndentTo s2.m_column with hs3
  have hskip : SkipFrame s s2 :=
    SkipFrame.ktrans (skipFrame_ScanToNextTokenF (s.input.length + 1) s)
      (statusOnly_ValidateSimpleKey s1).sskip
  have p02 : PieceRel 0 s s2 := piece_of_skipFrame hskip hc hg
  have hcol2 : (-1 : Int) ≤ s2.m_column := by
    have := p02.pcol
    omega
  have p23 : PieceRel 0 s2 s3 :=
    piece_popIndentTo s2 s2.m_column hcol2 p02.pcol p02.pgood
  have p03 : PieceRel 0 s s3 := p02.ptrans p23
  have hsuf3 : s3.input <:+ s.input := p03.1.1
  rcases hcl : s3.classify with _ | _ | _ | _ | _ | _ | _ | _ | _ | _ | _ | _ | _ | _ | _ <;>
    rw [hcl] at hok <;> simp only [Scanner.dispatch, Except.ok.injEq] at hok
  · obtain ⟨hrel, hend1, hflw, hsnt⟩ :=
      rel_ScanAndEnqueue_streamEnd s3 p03.pcol p03.pgood
    have hrel1 : ScanStepRel 1 s s' := hok ▸ (p03.1.rtrans hrel)
    exact ⟨hrel1.rmono (by omega), Or.inr ⟨hok ▸ hend1, hrel1⟩⟩
  · obtain ⟨hrel4, hendeq⟩ := masterOrdinary bodyOK_doc
      (by refine ⟨?_, ?_, ?_⟩ <;> decide) (by omega) p03 hok
    refine ⟨hrel4, Or.inl ⟨hendeq.trans hend, ?_⟩⟩
    have hne : s3.input ≠ [] := classify_input_ne_nil (by rw [hcl]; decide)
    have hcons := consume_ScanAndEnqueue consume_body_doc s3 TokenType.documentStart hne
    rw [hok] at hcons
    exact lt_of_lt_of_le hcons hsuf3.length_le
  · obtain ⟨hrel4, hendeq⟩ := masterOrdinary bodyOK_doc
      (by refine ⟨?_, ?_, ?_⟩ <;> decide) (by omega) p03 hok
    refine ⟨hrel4, Or.inl ⟨hendeq.trans hend, ?_⟩⟩
    have hne : s3.input ≠ [] := classify_input_ne_nil (by rw [hcl]; decide)
    have hcons := consume_ScanAndEnqueue consume_body_doc s3 TokenType.documentEnd hne
    rw [hok] at hcons
    exact lt_of_lt_of_le hcons hsuf3.length_le
  · obtain ⟨hrel4, hendeq⟩ := masterOrdinary bodyOK_flowStart
      (by refine ⟨?_, ?_, ?_⟩ <;> decide) (by omega) p03 hok
    refine ⟨hrel4, Or.inl ⟨hendeq.trans hend, ?_⟩⟩
    have hne : s3.input ≠ [] := classify_input_ne_nil (by rw [hcl]; decide)
    have hcons := consume_ScanAndEnqueue consume_body_flowStart s3 TokenType.flowSeqStart hne
    rw [hok] at hcons
    exact lt_of_lt_of_le hcons hsuf3.length_le
  · obtain ⟨hrel4, hendeq⟩ := masterOrdinary bodyOK_flowEnd
      (by refine ⟨?_, ?_, ?_⟩ <;> decide) (by omega) p03 hok
    refine ⟨hrel4, Or.inl ⟨hendeq.trans hend, ?_⟩⟩
    have hne : s3.input ≠ [] := classify_input_ne_nil (by rw [hcl]; decide)
    have hcons := consume_ScanAndEnqueue consume_body_flowEnd s3 TokenType.flowSeqEnd hne
    rw [hok] at hcons
    exact lt_of_lt_of_le hcons hsuf3.length_le
  · obtain ⟨hrel4, hendeq⟩ := masterOrdinary bodyOK_flowStart
      (by refine ⟨?_, ?_, ?_⟩ <;> decide) (by omega) p03 hok
    refine ⟨hrel4, Or.inl ⟨hendeq.trans hend, ?_⟩⟩
    have hne : s3.input ≠ [] := classify_input_ne_nil (by rw [hcl]; decide)
    have hcons := consume_ScanAndEnqueue consume_body_flowStart s3 TokenType.flowMapStart hne
    rw [hok] at hcons
    exact lt_of_lt_of_le hcons hsuf3.length_le
  · obtain ⟨hrel4, hendeq⟩ := masterOrdinary bodyOK_flowEnd
      (by refine ⟨?_, ?_, ?_⟩ <;> decide) (by omega) p03 hok
    refine ⟨hrel4, Or.inl ⟨hendeq.trans hend, ?_⟩⟩
    have hne : s3.input ≠ [] := classify_input_ne_nil (by rw [hcl]; decide)
    have hcons := consume_ScanAndEnqueue consume_body_flowEnd s3 TokenType.flowMapEnd hne
    rw [hok] at hcons
    exact lt_of_lt_of_le hcons hsuf3.length_le
  · obtain ⟨hrel4, hendeq⟩ := masterOrdinary bodyOK_flowEntry
      (by refine ⟨?_, ?_, ?_⟩ <;> decide) (by omega) p03 hok
    refine ⟨hrel4, Or.inl ⟨hendeq.trans hend, ?_⟩⟩
    have hne : s3.input ≠ [] := classify_input_ne_nil (by rw [hcl]; decide)
    have hcons := consume_ScanAndEnqueue consume_body_flowEntry s3 TokenType.flowEntry hne
    rw [hok] at hcons
    exact lt_of_lt_of_le hcons hsuf3.length_le
  · obtain ⟨hrel4, hendeq⟩ := masterOrdinary bodyOK_blockEntry
      (by refine ⟨?_, ?_, ?_⟩ <;> decide) (by omega) p03 hok
    refine ⟨hrel4, Or.inl ⟨hendeq.trans hend, ?_⟩⟩
    have hne : s3.input ≠ [] := classify_input_ne_nil (by rw [hcl]; decide)
    have hcons := consume_ScanAndEnqueue consume_body_blockEntry s3 TokenType.blockEntry hne
    rw [hok] at hcons
    exact lt_of_lt_of_le hcons hsuf3.length_le
  · obtain ⟨hrel4, hendeq⟩ := masterOrdinary bodyOK_key
      (by refine ⟨?_, ?_, ?_⟩ <;> decide) (by omega) p03 hok
    refine ⟨hrel4, Or.inl ⟨hendeq.trans hend, ?_⟩⟩
    have hne : s3.input ≠ [] := classify_input_ne_nil (by rw [hcl]; decide)
    have hcons := consume_ScanAndEnqueue consume_body_key s3 TokenType.key hne
    rw [hok] at hcons
    exact lt_of_lt_of_le hcons hsuf3.length_le
  · obtain ⟨hrel4, hendeq⟩ := masterOrdinary bodyOK_value
      (by refine ⟨?_, ?_, ?_⟩ <;> decide) (by omega) p03 hok
    refine ⟨hrel4, Or.inl ⟨hendeq.trans hend, ?_⟩⟩
    have hne : s3.input ≠ [] := classify_input_ne_nil (by rw [hcl]; decide)
    have hcons := consume_ScanAndEnqueue consume_body_value s3 TokenType.value hne
    rw [hok] at hcons
    exact lt_of_lt_of_le hcons hsuf3.length_le
  · obtain ⟨c, rest, hin3, hcr⟩ := classify_stall_head hcl
    have hmem : c ∈ s.input := hsuf3.subset (by rw [hin3]; exact List.mem_cons_self _ _)
    rcases hcr with rfl | rfl
    · exact absurd hmem hpipe
    · exact absurd hmem hgt
  · obtain ⟨hrel4, hendeq⟩ := masterOrdinary bodyOK_quoted
      (by refine ⟨?_, ?_, ?_⟩ <;> decide) (by omega) p03 hok
    refine ⟨hrel4, Or.inl ⟨hendeq.trans hend, ?_⟩⟩
    have hne : s3.input ≠ [] := classify_input_ne_nil (by rw [hcl]; decide)
    have hcons := consume_ScanAndEnqueue consume_body_quoted s3 TokenType.quotedScalar hne
    rw [hok] at hcons
    exact lt_of_lt_of_le hcons hsuf3.length_le
  · obtain ⟨hrel4, hendeq⟩ := masterOrdinary bodyOK_plain
      (by refine ⟨?_, ?_, ?_⟩ <;> decide) (by omega) p03 hok
    refine ⟨hrel4, Or.inl ⟨hendeq.trans hend, ?_⟩⟩
    have hne : s3.input ≠ [] := classify_input_ne_nil (by rw [hcl]; decide)
    have hcons := consume_ScanAndEnqueue consume_body_plain s3 TokenType.plainScalar hne
    rw [hok] at hcons
    exact lt_of_lt_of_le hcons hsuf3.length_le
  · exact Except.noConfusion hok

/-- Termination measure of the GetNextToken loop: remaining input weighted
five (a scan step enqueues at most four queue or stack entries), the unspent
start and end transitions, and the pending queue and stack entries. -/
def gntMeasure (s : Scanner) : Nat :=
  5 * s.input.length + (if s.m_startedStream then 0 else 3) +
    (if s.m_endedStream then 0 else 2) + s.m_tokens.length + s.m_indents.length

/-- One successful scan step from inside the GetNextToken loop strictly
decreases the termination measure. -/
theorem gntMeasure_scan_step {s s2 : Scanner} (hc : 0 ≤ s.m_column)
    (hgs : s.m_startedStream = true → GoodStack s.m_indents)
    (hge : s.m_startedStream = false → s.m_indents = [])
    (hpipe : '|' ∉ s.input) (hgt : '>' ∉ s.input)
    (hendf : s.m_endedStream = false)
    (hscan : s.ScanNextToken = Except.ok s2) :
    gntMeasure s2 < gntMeasure s ∧ 0 ≤ s2.m_column ∧
      (s2.m_startedStream = true → GoodStack s2.m_indents) ∧
      (s2.m_startedStream = false → s2.m_indents = []) ∧
      '|' ∉ s2.input ∧ '>' ∉ s2.input := by
  by_cases hst : s.m_startedStream = true
  · obtain ⟨hrel4, hprog⟩ :=
      scanNextToken_progress hst hendf hc (hgs hst) hpipe hgt hscan
    have hst2 : s2.m_startedStream = true := hrel4.2.2.2.2.1.trans hst
    have hsub : s2.input <:+ s.input := hrel4.1
    refine ⟨?_, hrel4.2.1, fun _ => hrel4.2.2.2.2.2.1,
      fun hf => absurd (hst2.symm.trans hf) (by decide),
      fun hm => hpipe (hsub.subset hm), fun hm => hgt (hsub.subset hm)⟩
    rcases hprog with ⟨hend2, hlt⟩ | ⟨hend2, hrel1⟩
    · have hsize := stepRel_size hrel4
      unfold gntMeasure
      rw [hst, hst2, hendf, hend2]
      simp
      omega
    · have hsize := stepRel_size hrel1
      have hlen : s2.input.length ≤ s.input.length := hsub.length_le
      unfold gntMeasure
      rw [hst, hst2, hendf, hend2]
      simp
      omega
  · have hstf : s.m_startedStream = false := by
      cases hb : s.m_startedStream
      · rfl
      · exact absurd hb hst
    have hind : s.m_indents = [] := hge hstf
    rw [scanNextToken_unstarted hstf hendf] at hscan
    have heq := Except.ok.inj hscan
    subst heq
    refine ⟨?_, hc, fun _ => ?_, fun hf => absurd hf (by simp), hpipe, hgt⟩
    · unfold gntMeasure
      rw [hstf, hendf]
      simp
      omega
    · show GoodStack (-1 :: s.m_indents)
      rw [hind]
      exact ⟨List.cons_ne_nil _ _, rfl, List.chain'_singleton _⟩

/-- The GetNextToken loop, run with fuel exceeding the measure of a
well-formed state whose input holds no block-scalar marker, never runs out
of fuel. -/
theorem getNextTokenF_total : ∀ (k : Nat) (s : Scanner), gntMeasure s < k →
    0 ≤ s.m_column → (s.m_startedStream = true → GoodStack s.m_indents) →
    (s.m_startedStream = false → s.m_indents = []) →
    '|' ∉ s.input → '>' ∉ s.input →
    getNextTokenF k s ≠ GNTRes.outOfFuel := by
  intro k
  induction k with
  | zero =>
      intro s hk _ _ _ _ _
      exact absurd hk (Nat.not_lt_zero _)
  | succ k ih =>
      intro s hk hc hgs hge hpipe hgt
      unfold getNextTokenF
      rcases htk : s.m_tokens with _ | ⟨t, rest⟩
      · by_cases hend : s.m_endedStream = true
        · rw [if_pos hend]
          exact fun hcon => GNTRes.noConfusion hcon
        · rw [if_neg hend]
          rcases hscan : s.ScanNextToken with e | s2
          · dsimp only []
            exact fun hcon => GNTRes.noConfusion hcon
          · dsimp only []
            have hendf : s.m_endedStream = false := by
              cases hb : s.m_endedStream
              · rfl
              · exact absurd hb hend
            obtain ⟨hμ, hc2, hgs2, hge2, hp2, hg2⟩ :=
              gntMeasure_scan_step hc hgs hge hpipe hgt hendf hscan
            exact ih s2 (by omega) hc2 hgs2 hge2 hp2 hg2
      · dsimp only []
        by_cases hp : t.isPossible = false
        · rw [if_pos hp]
          refine ih { s with m_tokens := rest } ?_ hc hgs hge hpipe hgt
          have hms : gntMeasure s
              = gntMeasure { s with m_tokens := rest } + 1 := by
            unfold gntMeasure
            rw [htk]
            simp only [List.length_cons]
            omega
          omega
        · rw [if_neg hp]
          by_cases hv : t.isValid = true
          · rw [if_pos hv]
            exact fun hcon => GNTRes.noConfusion hcon
          · rw [if_neg hv]
            by_cases hend : s.m_endedStream = true
            · rw [if_pos hend]
              exact fun hcon => GNTRes.noConfusion hcon
            · rw [if_neg hend]
              rcases hscan : s.ScanNextToken with e | s2
              · dsimp only []
                exact fun hcon => GNTRes.noConfusion hcon
              · dsimp only []
                have hendf : s.m_endedStream = false := by
                  cases hb : s.m_endedStream
                  · rfl
                  · exact absurd hb hend
                obtain ⟨hμ, hc2, hgs2, hge2, hp2, hg2⟩ :=
                  gntMeasure_scan_step hc hgs hge hpipe hgt hendf hscan
                exact ih s2 (by omega) hc2 hgs2 hge2 hp2 hg2

/-- C8 (amended): for every finite input that holds no literal or folded
block-scalar marker, GetNextToken terminates — with fuel beyond the initial
measure the loop never runs out, so it returns a token, an error, or end of
stream.  (The marker exclusion is needed: at a marker ScanNextToken returns
without enqueuing a token and without consuming input, and the loop spins
forever, see the counterexample.) -/
theorem getNextToken_terminates (input : List Char) (fuel : Nat)
    (hpipe : '|' ∉ input) (hgt : '>' ∉ input)
    (hfuel : gntMeasure (initScanner input) < fuel) :
    getNextTokenF fuel (initScanner input) ≠ GNTRes.outOfFuel :=
  getNextTokenF_total fuel (initScanner input) hfuel (le_refl 0)
    (fun h => absurd h (by simp [initScanner])) (fun _ => rfl) hpipe hgt

/-- The scanner state after GetNextToken has delivered the StreamStart token
of the input consisting of a single literal block-scalar marker. -/
def sPipe : Scanner := ⟨['|'], true, false, true, 0, 0, 0, [-1], [], [], 1, none⟩

/-- Counterexample data for C8 as frozen: on the input consisting of the
single character `|`, GetNextToken first delivers StreamStart reaching the
state sPipe; there ScanNextToken returns without enqueuing a token and
without consuming input, and GetNextToken runs out of fuel whatever fuel it
is given — the loop never terminates. -/
theorem getNextToken_livelock_on_block_scalar :
    getNextTokenF 2 (initScanner ['|'])
        = GNTRes.tok (Token.mk TokenType.streamStart [] true true 0) sPipe ∧
    sPipe.ScanNextToken = Except.ok sPipe ∧
    ∀ n, getNextTokenF n sPipe = GNTRes.outOfFuel := by
  refine ⟨by rfl, by rfl, ?_⟩
  intro n
  induction n with
  | zero => rfl
  | succ n ih =>
      unfold getNextTokenF
      rw [show sPipe.m_tokens = ([] : List Token) from rfl]
      dsimp only []
      rw [if_neg (by decide)]
      rw [show sPipe.ScanNextToken = Except.ok sPipe from rfl]
      dsimp only []
      exact ih

theorem getNextToken_terminates_witness :
    ('|' ∉ ['a']) ∧ ('>' ∉ ['a']) ∧ gntMeasure (initScanner ['a']) < 11 ∧
      getNextTokenF 11 (initScanner ['a']) ≠ GNTRes.outOfFuel :=
  ⟨by decide, by decide, by decide,
    getNextToken_terminates ['a'] 11 (by decide) (by decide) (by decide)⟩

end YAML
